import Mathlib

/-!
Shallow embedding of the noty Markdown ⇄ Notion-block conversion core:
the inline-span tokenizer (`parseInlineFormatting`), the rich-text
serializer (`richTextToMarkdown`), the line-based Markdown parser
(`markdownToBlocks`), the block serializer (`blocksToMarkdown`), the
identifier normalizer (`extractNotionId`), the retry policy (`withRetry`),
and the property flattener (`buildProperties`).

Strings are modelled as `List Char`; JavaScript numbers as `ℚ` (retry
delays) or `Int` (property payloads); JavaScript objects as inductive
types covering the fields the code reads.
-/

namespace Noty

/-- The backtick character (U+0060), written via its code point. -/
def btChar : Char := Char.ofNat 96

/-! ## Inline spans (the parser-side `RichTextObject` shape)

The source represents a span as
`{type: "text", text: {content, link?}, annotations: {bold, italic,
strikethrough, underline, code}}`.  The serializer-side `RichText` type
additionally allows `plain_text`/`href`; those fields are absent on every
span the tokenizer produces, so the embedding models the common
`text`/`annotations` shape. -/

structure Annotations where
  bold : Bool
  italic : Bool
  strikethrough : Bool
  underline : Bool
  code : Bool
deriving DecidableEq

structure TextPayload where
  content : List Char
  link : Option (List Char)
deriving DecidableEq

structure RichTextObject where
  text : TextPayload
  annotations : Annotations
deriving DecidableEq

/-- `DEFAULT_ANNOTATIONS` from the source: every flag false. -/
def defaultAnnotations : Annotations :=
  { bold := false, italic := false, strikethrough := false
    underline := false, code := false }

def mkPlain (t : List Char) : RichTextObject :=
  { text := { content := t, link := none }, annotations := defaultAnnotations }

def mkBold (t : List Char) : RichTextObject :=
  { text := { content := t, link := none }
    annotations := { defaultAnnotations with bold := true } }

def mkItalic (t : List Char) : RichTextObject :=
  { text := { content := t, link := none }
    annotations := { defaultAnnotations with italic := true } }

def mkBoldItalic (t : List Char) : RichTextObject :=
  { text := { content := t, link := none }
    annotations := { defaultAnnotations with bold := true, italic := true } }

def mkStrike (t : List Char) : RichTextObject :=
  { text := { content := t, link := none }
    annotations := { defaultAnnotations with strikethrough := true } }

def mkCode (t : List Char) : RichTextObject :=
  { text := { content := t, link := none }
    annotations := { defaultAnnotations with code := true } }

def mkLink (t u : List Char) : RichTextObject :=
  { text := { content := t, link := some u }, annotations := defaultAnnotations }

/-! ## The inline tokenizer `parseInlineFormatting`

The source scans the line with one global regular expression
`(\[([^\]]+)\]\(([^)]+)\))|(X([^X]+)X)|(\*\*\*([^*]+)\*\*\*)|(\*\*([^*]+)\*\*)|(\*([^*]+)\*)|(\~\~([^~]+)\~\~)`
(with X the backtick): leftmost match wins, alternatives are tried in
order at each position, `[^c]+` is a maximal nonempty run of characters
other than `c` followed by the mandatory closing delimiter.  Each
alternative is embedded as one matcher returning the produced span and
the unconsumed suffix. -/

/-- Alternative 1, hyperlink `[text](url)`. -/
def matchLink : List Char → Option (RichTextObject × List Char)
  | c :: rest =>
    if c = '[' then
      let t := rest.takeWhile (fun x => x != ']')
      if t.isEmpty then none
      else
        match rest.dropWhile (fun x => x != ']') with
        | c1 :: c2 :: rest2 =>
          if c1 = ']' && c2 = '(' then
            let u := rest2.takeWhile (fun x => x != ')')
            if u.isEmpty then none
            else
              match rest2.dropWhile (fun x => x != ')') with
              | c3 :: rest3 => if c3 = ')' then some (mkLink t u, rest3) else none
              | [] => none
          else none
        | _ => none
    else none
  | [] => none

/-- Alternative 2, inline code delimited by backticks. -/
def matchCode : List Char → Option (RichTextObject × List Char)
  | c :: rest =>
    if c = btChar then
      let t := rest.takeWhile (fun x => x != btChar)
      if t.isEmpty then none
      else
        match rest.dropWhile (fun x => x != btChar) with
        | c1 :: rest2 => if c1 = btChar then some (mkCode t, rest2) else none
        | [] => none
    else none
  | [] => none

/-- Alternative 3, bold+italic `***text***`. -/
def matchBoldItalic : List Char → Option (RichTextObject × List Char)
  | c1 :: c2 :: c3 :: whatFollows =>
    if c1 = '*' && c2 = '*' && c3 = '*' then
      let t := whatFollows.takeWhile (fun x => x != '*')
      if t.isEmpty then none
      else
        match whatFollows.dropWhile (fun x => x != '*') with
        | d1 :: d2 :: d3 :: rest2 =>
          if d1 = '*' && d2 = '*' && d3 = '*' then some (mkBoldItalic t, rest2)
          else none
        | _ => none
    else none
  | _ => none

/-- Alternative 4, bold `**text**`. -/
def matchBold : List Char → Option (RichTextObject × List Char)
  | c1 :: c2 :: whatFollows =>
    if c1 = '*' && c2 = '*' then
      let t := whatFollows.takeWhile (fun x => x != '*')
      if t.isEmpty then none
      else
        match whatFollows.dropWhile (fun x => x != '*') with
        | d1 :: d2 :: rest2 =>
          if d1 = '*' && d2 = '*' then some (mkBold t, rest2) else none
        | _ => none
    else none
  | _ => none

/-- Alternative 5, italic `*text*`. -/
def matchItalic : List Char → Option (RichTextObject × List Char)
  | c1 :: whatFollows =>
    if c1 = '*' then
      let t := whatFollows.takeWhile (fun x => x != '*')
      if t.isEmpty then none
      else
        match whatFollows.dropWhile (fun x => x != '*') with
        | d1 :: rest2 => if d1 = '*' then some (mkItalic t, rest2) else none
        | [] => none
    else none
  | [] => none

/-- Alternative 6, strikethrough `~~text~~`. -/
def matchStrike : List Char → Option (RichTextObject × List Char)
  | c1 :: c2 :: whatFollows =>
    if c1 = '~' && c2 = '~' then
      let t := whatFollows.takeWhile (fun x => x != '~')
      if t.isEmpty then none
      else
        match whatFollows.dropWhile (fun x => x != '~') with
        | d1 :: d2 :: rest2 =>
          if d1 = '~' && d2 = '~' then some (mkStrike t, rest2) else none
        | _ => none
    else none
  | _ => none

/-- One attempt of the alternation at the current position: the
alternatives in the order of the source pattern. -/
def matchAt (l : List Char) : Option (RichTextObject × List Char) :=
  match matchLink l with
  | some r => some r
  | none =>
    match matchCode l with
    | some r => some r
    | none =>
      match matchBoldItalic l with
      | some r => some r
      | none =>
        match matchBold l with
        | some r => some r
        | none =>
          match matchItalic l with
          | some r => some r
          | none => matchStrike l

/-- `results.push` of the pending plain slice: pushed only if nonempty. -/
def flushPlain (acc : List Char) : List RichTextObject :=
  if acc.isEmpty then [] else [mkPlain acc]

/-- The `pattern.exec` loop: walk the line left to right; at a match
emit the accumulated plain text (if nonempty) and the matched span and
resume after the match, otherwise move one character into the plain
accumulator.  Fuel bounds the recursion; `l.length` fuel is always
sufficient (`parseAuxF_fuel_irrel`). -/
def parseAuxF : Nat → List Char → List Char → List RichTextObject
  | 0, l, acc => flushPlain (acc ++ l)
  | _ + 1, [], acc => flushPlain acc
  | fuel + 1, c :: cs, acc =>
    match matchAt (c :: cs) with
    | some (tok, rest) => flushPlain acc ++ tok :: parseAuxF fuel rest []
    | none => parseAuxF fuel cs (acc ++ [c])

/-- `parseInlineFormatting` from `markdown-to-blocks`. -/
def parseInlineFormatting (l : List Char) : List RichTextObject :=
  parseAuxF l.length l []

/-- `makeRichText` from the source is `parseInlineFormatting`. -/
def makeRichText (l : List Char) : List RichTextObject :=
  parseInlineFormatting l

/-! ## The rich-text serializer `richTextToMarkdown`

Per span: empty text contributes nothing; otherwise wrap in delimiters
for `code`, then `bold`, then `italic`, then `strikethrough`; a link
wraps the (possibly styled) text in `[text](url)`. -/

def renderSpan (rt : RichTextObject) : List Char :=
  let t0 := rt.text.content
  if t0.isEmpty then []
  else
    let t1 := if rt.annotations.code then btChar :: t0 ++ [btChar] else t0
    let t2 := if rt.annotations.bold then '*' :: '*' :: t1 ++ ['*', '*'] else t1
    let t3 := if rt.annotations.italic then '*' :: t2 ++ ['*'] else t2
    let t4 :=
      if rt.annotations.strikethrough then '~' :: '~' :: t3 ++ ['~', '~'] else t3
    match rt.text.link with
    | some u => '[' :: t4 ++ ']' :: '(' :: u ++ [')']
    | none => t4

/-- `richTextToMarkdown` from `blocks-to-markdown`. -/
def richTextToMarkdown (richTexts : List RichTextObject) : List Char :=
  (richTexts.map renderSpan).flatten

/-! ## Character classes shared by the line-level regular expressions -/

/-- Line terminators that the regex `.` does not match. -/
def isLineTermChar (c : Char) : Bool :=
  c = '\n' || c = '\r' || c = Char.ofNat 0x2028 || c = Char.ofNat 0x2029

/-- All characters match the regex `.` (no line terminators). -/
def dotOnly (l : List Char) : Bool := l.all (fun c => !isLineTermChar c)

/-- JavaScript whitespace (`String.prototype.trim`, `parseFloat` skip). -/
def isJsWS (c : Char) : Bool :=
  c = ' ' || c = '\t' || c = '\n' || c = '\r' || c = Char.ofNat 11 ||
  c = Char.ofNat 12 || c = Char.ofNat 0xa0 || c = Char.ofNat 0xfeff ||
  c = Char.ofNat 0x2028 || c = Char.ofNat 0x2029

/-- `String.prototype.trim`. -/
def trimWS (l : List Char) : List Char :=
  ((l.dropWhile isJsWS).reverse.dropWhile isJsWS).reverse

/-- The regex class `\d`. -/
def isDigitCh (c : Char) : Bool := '0' ≤ c && c ≤ '9'

/-- The regex class `\w` = `[A-Za-z0-9_]`. -/
def isWordCh (c : Char) : Bool := c.isAlpha || isDigitCh c || c = '_'

/-! ## The Markdown → block parser `markdownToBlocks`

Line classifiers, one per source regex, in the priority order of the
source `while` loop: code fence, divider, headings 1–3, bulleted item,
numbered item, quote, blank skip, paragraph fallback. -/

/-- Opening fence: the whole line is three backticks plus a `\w*` tag. -/
def fenceOpenMatch : List Char → Option (List Char)
  | c1 :: c2 :: c3 :: rest =>
    if c1 = btChar && c2 = btChar && c3 = btChar && rest.all isWordCh then some rest
    else none
  | _ => none

/-- Closing fence: the line is exactly three backticks. -/
def isFenceClose (l : List Char) : Bool := l == [btChar, btChar, btChar]

/-- Divider: the trimmed line is three or more dashes and nothing else. -/
def isDividerLine (l : List Char) : Bool :=
  let t := trimWS l
  3 ≤ t.length && t.all (fun c => c == '-')

def h1Match : List Char → Option (List Char)
  | c1 :: c2 :: rest =>
    if c1 = '#' && c2 = ' ' && !rest.isEmpty && dotOnly rest then some rest else none
  | _ => none

def h2Match : List Char → Option (List Char)
  | c1 :: c2 :: c3 :: rest =>
    if c1 = '#' && c2 = '#' && c3 = ' ' && !rest.isEmpty && dotOnly rest then some rest
    else none
  | _ => none

def h3Match : List Char → Option (List Char)
  | c1 :: c2 :: c3 :: c4 :: rest =>
    if c1 = '#' && c2 = '#' && c3 = '#' && c4 = ' ' && !rest.isEmpty && dotOnly rest then
      some rest
    else none
  | _ => none

def bulletMatch : List Char → Option (List Char)
  | c1 :: c2 :: rest =>
    if (c1 = '-' || c1 = '*') && c2 = ' ' && !rest.isEmpty && dotOnly rest then some rest
    else none
  | _ => none

def numberedMatch (l : List Char) : Option (List Char) :=
  if (l.takeWhile isDigitCh).isEmpty then none
  else
    match l.dropWhile isDigitCh with
    | c1 :: c2 :: rest =>
      if c1 = '.' && c2 = ' ' && !rest.isEmpty && dotOnly rest then some rest else none
    | _ => none

def quoteMatch : List Char → Option (List Char)
  | c1 :: c2 :: rest =>
    if c1 = '>' && c2 = ' ' && !rest.isEmpty && dotOnly rest then some rest else none
  | _ => none

/-- The parser's block records (`object: "block"` with a type tag):
`heading_1..3`, `bulleted_list_item`, `numbered_list_item`, `quote`,
`code`, `divider`, `paragraph`. -/
inductive PBlock
  | paragraph (richText : List RichTextObject)
  | heading1 (richText : List RichTextObject)
  | heading2 (richText : List RichTextObject)
  | heading3 (richText : List RichTextObject)
  | bulleted (richText : List RichTextObject)
  | numbered (richText : List RichTextObject)
  | quoteB (richText : List RichTextObject)
  | codeB (richText : List RichTextObject) (language : List Char)
  | dividerB
deriving DecidableEq

/-- `Array.prototype.join("\n")`. -/
def joinNL (ls : List (List Char)) : List Char := List.intercalate ['\n'] ls

/-- `codeMatch[1] || "plain text"`. -/
def codeLang (tag : List Char) : List Char :=
  if tag.isEmpty then "plain text".toList else tag

/-- The code block pushed for one whole fence: a single verbatim span. -/
def mkCodeBlock (tag : List Char) (body : List (List Char)) : PBlock :=
  .codeB [mkPlain (joinNL body)] (codeLang tag)

/-- The `while (i < lines.length)` loop of `markdownToBlocks`, with fuel
bounding the recursion; `lines.length` fuel is always sufficient. -/
def parseLinesF : Nat → List (List Char) → List PBlock
  | 0, _ => []
  | _ + 1, [] => []
  | fuel + 1, line :: rest =>
    match fenceOpenMatch line with
    | some tag =>
      let body := rest.takeWhile (fun l => !isFenceClose l)
      let rest2 := (rest.dropWhile (fun l => !isFenceClose l)).drop 1
      mkCodeBlock tag body :: parseLinesF fuel rest2
    | none =>
      if isDividerLine line then .dividerB :: parseLinesF fuel rest
      else
        match h1Match line with
        | some t => .heading1 (makeRichText t) :: parseLinesF fuel rest
        | none =>
          match h2Match line with
          | some t => .heading2 (makeRichText t) :: parseLinesF fuel rest
          | none =>
            match h3Match line with
            | some t => .heading3 (makeRichText t) :: parseLinesF fuel rest
            | none =>
              match bulletMatch line with
              | some t => .bulleted (makeRichText t) :: parseLinesF fuel rest
              | none =>
                match numberedMatch line with
                | some t => .numbered (makeRichText t) :: parseLinesF fuel rest
                | none =>
                  match quoteMatch line with
                  | some t => .quoteB (makeRichText t) :: parseLinesF fuel rest
                  | none =>
                    if (trimWS line).isEmpty then parseLinesF fuel rest
                    else .paragraph (makeRichText line) :: parseLinesF fuel rest

/-- The line state machine on an already-split list of lines. -/
def parseLines (ls : List (List Char)) : List PBlock := parseLinesF ls.length ls

/-- `markdown.split("\n")`: splitting on every newline, `n+1` parts. -/
def splitNL : List Char → List (List Char)
  | [] => [[]]
  | c :: cs =>
    if c = '\n' then [] :: splitNL cs
    else
      match splitNL cs with
      | [] => [[c]]
      | h :: t => (c :: h) :: t

/-- `markdownToBlocks` from the source. -/
def markdownToBlocks (markdown : List Char) : List PBlock :=
  parseLines (splitNL markdown)

/-! ## The block → Markdown serializer `blocksToMarkdown` -/

/-- Serializer-side block payloads, one constructor per `case` of
`blockToMarkdown` (type tags `paragraph`, `heading_1..3`,
`bulleted_list_item`, `numbered_list_item`, `to_do`, `toggle`, `code`,
`quote`, `callout`, `divider`, `image`, `table`, `table_row`,
`bookmark`, `embed`, `equation`), plus `unsupported` for the `default`
branch. -/
inductive SBlockData
  | paragraph (richText : List RichTextObject)
  | heading1 (richText : List RichTextObject)
  | heading2 (richText : List RichTextObject)
  | heading3 (richText : List RichTextObject)
  | bulletedListItem (richText : List RichTextObject)
  | numberedListItem (richText : List RichTextObject)
  | toDo (checked : Bool) (richText : List RichTextObject)
  | toggle (richText : List RichTextObject)
  | codeBlk (language : List Char) (richText : List RichTextObject)
  | quoteBlk (richText : List RichTextObject)
  | callout (emoji : Option (List Char)) (richText : List RichTextObject)
  | dividerBlk
  | image (srcIsFile : Bool) (fileUrl externalUrl : Option (List Char))
      (caption : List RichTextObject)
  | table
  | tableRow (cells : List (List RichTextObject))
  | bookmark (url : List Char) (caption : List RichTextObject)
  | embed (url : List Char)
  | equation (expression : List Char)
  | unsupported
deriving DecidableEq

/-- A serializer-side block record `{id, type, has_children, ...}`. -/
structure SBlock where
  id : List Char
  hasChildren : Bool
  data : SBlockData
deriving DecidableEq

/-- `"  ".repeat(indent)`. -/
def indentPrefix (indent : Nat) : List Char :=
  (List.replicate indent [' ', ' ']).flatten

/-- `blockToMarkdown` from the source: one block, one (possibly
multi-line, possibly empty) string. -/
def blockToMarkdown (b : SBlock) (indent : Nat) : List Char :=
  let pre := indentPrefix indent
  match b.data with
  | .paragraph rt => pre ++ richTextToMarkdown rt
  | .heading1 rt => pre ++ "# ".toList ++ richTextToMarkdown rt
  | .heading2 rt => pre ++ "## ".toList ++ richTextToMarkdown rt
  | .heading3 rt => pre ++ "### ".toList ++ richTextToMarkdown rt
  | .bulletedListItem rt => pre ++ "- ".toList ++ richTextToMarkdown rt
  | .numberedListItem rt => pre ++ "1. ".toList ++ richTextToMarkdown rt
  | .toDo checked rt =>
    pre ++ "- [".toList ++ (if checked then "x".toList else " ".toList) ++
      "] ".toList ++ richTextToMarkdown rt
  | .toggle rt => pre ++ "- ".toList ++ richTextToMarkdown rt
  | .codeBlk lang rt =>
    pre ++ "```".toList ++ lang ++ '\n' :: pre ++ richTextToMarkdown rt ++
      '\n' :: pre ++ "```".toList
  | .quoteBlk rt => pre ++ "> ".toList ++ richTextToMarkdown rt
  | .callout emoji rt =>
    pre ++ "> ".toList ++ emoji.getD [] ++ ' ' :: richTextToMarkdown rt
  | .dividerBlk => pre ++ "---".toList
  | .image srcIsFile fileUrl externalUrl caption =>
    let url := if srcIsFile then fileUrl else externalUrl
    pre ++ "![".toList ++ richTextToMarkdown caption ++ "](".toList ++
      url.getD [] ++ ")".toList
  | .table => []
  | .tableRow cells =>
    pre ++ "| ".toList ++
      List.intercalate (" | ".toList) (cells.map richTextToMarkdown) ++ " |".toList
  | .bookmark url caption =>
    let c := richTextToMarkdown caption
    pre ++ "[".toList ++ (if c.isEmpty then url else c) ++ "](".toList ++
      url ++ ")".toList
  | .embed url => pre ++ "[".toList ++ url ++ "](".toList ++ url ++ ")".toList
  | .equation expr => pre ++ "$$".toList ++ expr ++ "$$".toList
  | .unsupported => []

/-- The header separator row pushed after the first row of a table run. -/
def tableSep (indent : Nat) (cells : List (List RichTextObject)) : List Char :=
  indentPrefix indent ++ "| ".toList ++
    List.intercalate (" | ".toList) (cells.map (fun _ => "---".toList)) ++ " |".toList

/-- The `for (const block of blocks)` loop of `blocksToMarkdown` with its
`isFirstTableRow` flag, collecting pushed lines.  Models the call without
a `fetchChildren` callback, so the `has_children` recursion is skipped
(exactly the behaviour of the source `blocksToMarkdownSync`). -/
def btmLines (indent : Nat) : List SBlock → Bool → List (List Char)
  | [], _ => []
  | b :: rest, isFirstTableRow =>
    let line := blockToMarkdown b indent
    match b.data with
    | .tableRow cells =>
      if isFirstTableRow then line :: tableSep indent cells :: btmLines indent rest false
      else line :: btmLines indent rest false
    | _ =>
      if line.isEmpty then btmLines indent rest true
      else line :: btmLines indent rest true

/-- `blocksToMarkdown` (no `fetchChildren` supplied): pushed lines joined
by newline, no trailing newline. -/
def blocksToMarkdown (blocks : List SBlock) (indent : Nat) : List Char :=
  joinNL (btmLines indent blocks true)

/-! ## The identifier normalizer `extractNotionId` -/

def hexDigits : List Char := "0123456789abcdefABCDEF".toList

/-- The regex class `[0-9a-f]` with the `i` flag. -/
def isHexDigit (c : Char) : Bool := hexDigits.contains c

def lowerHexDigits : List Char := "0123456789abcdef".toList

def isLowerHex (c : Char) : Bool := lowerHexDigits.contains c

/-- `HEX32_RE`: exactly 32 hex characters. -/
def isHex32 (l : List Char) : Bool := l.length == 32 && l.all isHexDigit

/-- `String.prototype.split` on a single separator character. -/
def splitOnChar (sep : Char) : List Char → List (List Char)
  | [] => [[]]
  | c :: cs =>
    if c = sep then [] :: splitOnChar sep cs
    else
      match splitOnChar sep cs with
      | [] => [[c]]
      | h :: t => (c :: h) :: t

/-- `UUID_RE`: dashed 8-4-4-4-12 hex, case-insensitive. -/
def isUuidRe (l : List Char) : Bool :=
  match splitOnChar '-' l with
  | [a, b, c, d, e] =>
    a.length == 8 && b.length == 4 && c.length == 4 && d.length == 4 &&
    e.length == 12 && a.all isHexDigit && b.all isHexDigit &&
    c.all isHexDigit && d.all isHexDigit && e.all isHexDigit
  | _ => false

/-- `String.prototype.toLowerCase` on one character (ASCII range; the
inputs of interest are hex digits and dashes). -/
def jsToLowerChar (c : Char) : Char :=
  if 'A' ≤ c && c ≤ 'Z' then Char.ofNat (c.toNat + 32) else c

def toLowerStr (l : List Char) : List Char := l.map jsToLowerChar

/-- The dashed 8-4-4-4-12 template-literal formatting in `toUuid`. -/
def uuidFormat (h : List Char) : List Char :=
  h.take 8 ++ '-' :: (h.drop 8).take 4 ++ '-' :: (h.drop 12).take 4 ++
    '-' :: (h.drop 16).take 4 ++ '-' :: h.drop 20

/-- `toUuid` from `url-parser`: strip dashes, lowercase, and insert the
canonical dashes; inputs that do not reduce to 32 characters are
returned unchanged. -/
def toUuid (hex32 : List Char) : List Char :=
  let h := toLowerStr (hex32.filter (fun c => c != '-'))
  if h.length != 32 then hex32 else uuidFormat h

def isSchemeChar (c : Char) : Bool :=
  c.isAlpha || isDigitCh c || c = '+' || c = '-' || c = '.'

/-- Split off a URL scheme `alpha (alnum|+|-|.)* :`; `none` models the
`new URL` constructor throwing. -/
def urlSchemeSplit (t : List Char) : Option (List Char) :=
  match t.dropWhile (fun c => c != ':') with
  | ':' :: after =>
    match t.takeWhile (fun c => c != ':') with
    | c :: cs => if c.isAlpha && cs.all isSchemeChar then some after else none
    | [] => none
  | _ => none

def cutAtQueryFrag (l : List Char) : List Char :=
  l.takeWhile (fun c => c != '?' && c != '#')

/-- Pathname of the part following `scheme:`: skip an authority when the
remainder starts with `//`, and stop at the query or fragment. -/
def urlPathname (after : List Char) : List Char :=
  match after with
  | '/' :: '/' :: rest => cutAtQueryFrag (rest.dropWhile (fun c => c != '/'))
  | _ => cutAtQueryFrag after

/-- Model of `new URL(trimmed)` followed by `url.pathname`: `none` when
the constructor throws (no valid scheme).  Simplified WHATWG model; the
claims only exercise inputs with no scheme separator at all. -/
def urlParse (t : List Char) : Option (List Char) :=
  match urlSchemeSplit t with
  | some after => some (urlPathname after)
  | none => none

/-- The regex `([0-9a-f]{32})(?:[?#]|$)` with the `i` flag: leftmost run
of 32 hex characters followed by `?`, `#` or the end. -/
def findHex32BeforeEnd : List Char → Option (List Char)
  | [] => none
  | c :: cs =>
    if 32 ≤ (c :: cs).length && ((c :: cs).take 32).all isHexDigit &&
        (match (c :: cs).drop 32 with
         | [] => true
         | d :: _ => d = '?' || d = '#') then
      some ((c :: cs).take 32)
    else findHex32BeforeEnd cs

/-- The regex `([0-9a-f]{32})` with the `i` flag: leftmost run of 32 hex
characters. -/
def findHex32Run : List Char → Option (List Char)
  | [] => none
  | c :: cs =>
    if 32 ≤ (c :: cs).length && ((c :: cs).take 32).all isHexDigit then
      some ((c :: cs).take 32)
    else findHex32Run cs

/-- `extractNotionId` from `url-parser`: canonical UUID → lowercase;
bare 32-hex → dashed; URL → extract the 32-hex path run or the trailing
hyphen-delimited segment; otherwise scan the raw string; otherwise
return the trimmed input verbatim. -/
def extractNotionId (input : List Char) : List Char :=
  let trimmed := trimWS input
  if isUuidRe trimmed then toLowerStr trimmed
  else if isHex32 trimmed then toUuid trimmed
  else
    let fallback :=
      match findHex32Run trimmed with
      | some h => toUuid h
      | none => trimmed
    match urlParse trimmed with
    | some path =>
      match findHex32BeforeEnd path with
      | some m => toUuid m
      | none =>
        let segments := ((splitOnChar '/' path).getLast?).getD []
        let lastPart := ((splitOnChar '-' segments).getLast?).getD []
        if isHex32 lastPart then toUuid lastPart else fallback
    | none => fallback

/-- The lowercase dashed 8-4-4-4-12 pattern of the spec. -/
def isCanonicalId (l : List Char) : Bool :=
  match splitOnChar '-' l with
  | [a, b, c, d, e] =>
    a.length == 8 && b.length == 4 && c.length == 4 && d.length == 4 &&
    e.length == 12 && a.all isLowerHex && b.all isLowerHex &&
    c.all isLowerHex && d.all isLowerHex && e.all isLowerHex
  | _ => false

/-! ## The retry policy `withRetry`

Thrown values are modelled by the fields the code reads: a `status`
field (a number or something else), a `headers` field (an object with an
optional `retry-after` entry, or a non-object), and an opaque remainder
`msg` distinguishing otherwise-equal errors. -/

inductive SVal
  | snum (q : ℚ)
  | sother
deriving DecidableEq

inductive HVal
  | hstr (s : List Char)
  | hother
deriving DecidableEq

inductive HeadersVal
  | hobj (retryAfter : Option HVal)
  | hnonobj
deriving DecidableEq

inductive JsVal
  | nonObject (v : List Char)
  | objVal (status : Option SVal) (headers : Option HeadersVal) (msg : List Char)
deriving DecidableEq

/-- The `status` property read, `undefined` on non-objects. -/
def statusOf : JsVal → Option SVal
  | .nonObject _ => none
  | .objVal st _ _ => st

/-- `isRetryable` from `retry`: `status === 429`, or a numeric status
`>= 500`. -/
def isRetryable : JsVal → Bool
  | .nonObject _ => false
  | .objVal st _ _ =>
    match st with
    | some (.snum q) => if q = 429 then true else decide ((500 : ℚ) ≤ q)
    | some .sother => false
    | none => false

def digitVal (c : Char) : ℕ := c.toNat - '0'.toNat

def digitsToNat (ds : List Char) : ℕ :=
  ds.foldl (fun acc c => acc * 10 + digitVal c) 0

/-- `parseFloat` on finite decimal/exponent literals, over `ℚ`: skip
leading whitespace, optional sign, digits with optional fraction,
optional exponent; trailing garbage is ignored; no parsable prefix is
`NaN` (`none`).  (`Infinity` is outside this model.)  The value
`sign * (int.frac) * 10^expo` is assembled with `mkRat` so that it
evaluates by kernel reduction. -/
def parseFloatQ (s : List Char) : Option ℚ :=
  let s1 := s.dropWhile isJsWS
  let signed : ℤ × List Char :=
    match s1 with
    | '-' :: r => (-1, r)
    | '+' :: r => (1, r)
    | r => (1, r)
  let sign := signed.1
  let s2 := signed.2
  let intPart := s2.takeWhile isDigitCh
  let r2 := s2.dropWhile isDigitCh
  let fracced : List Char × List Char :=
    match r2 with
    | '.' :: rf => (rf.takeWhile isDigitCh, rf.dropWhile isDigitCh)
    | _ => ([], r2)
  let fracPart := fracced.1
  let r3 := fracced.2
  if intPart.isEmpty && fracPart.isEmpty then none
  else
    let den : ℕ := 10 ^ fracPart.length
    let mantNum : ℤ :=
      sign * ((digitsToNat intPart : ℤ) * (den : ℤ) + (digitsToNat fracPart : ℤ))
    let expo : ℤ :=
      match r3 with
      | c :: r4 =>
        if c = 'e' || c = 'E' then
          match r4 with
          | '-' :: r5 =>
            let ds := r5.takeWhile isDigitCh
            if ds.isEmpty then 0 else -(digitsToNat ds : ℤ)
          | '+' :: r5 =>
            let ds := r5.takeWhile isDigitCh
            if ds.isEmpty then 0 else (digitsToNat ds : ℤ)
          | r5 =>
            let ds := r5.takeWhile isDigitCh
            if ds.isEmpty then 0 else (digitsToNat ds : ℤ)
        else 0
      | [] => 0
    some (if 0 ≤ expo then mkRat (mantNum * ((10 ^ expo.toNat : ℕ) : ℤ)) den
      else mkRat mantNum (den * 10 ^ (-expo).toNat))

/-- `getRetryAfterMs` from `retry`: a string `retry-after` header whose
`parseFloat` is not `NaN`, times 1000. -/
def getRetryAfterMs : JsVal → Option ℚ
  | .objVal _ (some (.hobj (some (.hstr s)))) _ =>
    match parseFloatQ s with
    | some seconds => some (seconds * 1000)
    | none => none
  | _ => none

/-- `Math.min` on two (non-`NaN`) numbers. -/
def jsMin (a b : ℚ) : ℚ := if a ≤ b then a else b

/-- The delay computed before one retry: `retryAfterMs ?? base * 2^n`,
then `Math.min` with `maxDelayMs`. -/
def delayFor (e : JsVal) (attempt : ℕ) (baseDelayMs maxDelayMs : ℚ) : ℚ :=
  let exponentialDelay := baseDelayMs * ((2 ^ attempt : ℕ) : ℚ)
  jsMin ((getRetryAfterMs e).getD exponentialDelay) maxDelayMs

/-- The result of the n-th invocation of the wrapped operation. -/
inductive Outcome (α : Type)
  | ok (v : α)
  | err (e : JsVal)

inductive RResult (α : Type)
  | success (v : α)
  | failure (e : JsVal)
deriving DecidableEq

/-- The `for (attempt = 0; attempt <= maxRetries; attempt++)` loop:
`remaining = maxRetries - attempt`, so `remaining = 0` is the
`attempt >= maxRetries` test.  Returns the recorded delays, the result,
and the number of invocations. -/
def retryGo {α : Type} (fn : ℕ → Outcome α) (base maxD : ℚ) :
    ℕ → ℕ → List ℚ → List ℚ × RResult α × ℕ
  | attempt, remaining, delays =>
    match fn attempt with
    | .ok v => (delays, .success v, attempt + 1)
    | .err e =>
      match remaining with
      | 0 => (delays, .failure e, attempt + 1)
      | r + 1 =>
        if isRetryable e then
          retryGo fn base maxD (attempt + 1) r
            (delays ++ [delayFor e attempt base maxD])
        else (delays, .failure e, attempt + 1)

/-- `withRetry` as a pure simulation: the operation is a function from
invocation index to outcome. -/
def withRetrySim {α : Type} (fn : ℕ → Outcome α) (maxRetries : ℕ)
    (baseDelayMs maxDelayMs : ℚ) : List ℚ × RResult α × ℕ :=
  retryGo fn baseDelayMs maxDelayMs 0 maxRetries []

/-! ## The property flattener `buildProperties` -/

/-- Array elements passed through `String(v)`. -/
inductive JPrim
  | ps (s : List Char)
  | pn (n : ℤ)
  | pb (b : Bool)
deriving DecidableEq

def intToStr (n : ℤ) : List Char := (toString n).toList

def jsPrimToString : JPrim → List Char
  | .ps s => s
  | .pn n => intToStr n
  | .pb b => if b then "true".toList else "false".toList

/-- Input property values: strings, (integer) numbers, booleans, arrays
of primitives, structured objects (opaquely tagged), and
null/undefined. -/
inductive JVal
  | vstr (s : List Char)
  | vnum (n : ℤ)
  | vbool (b : Bool)
  | varr (elems : List JPrim)
  | vobj (tag : ℕ)
  | vnull
deriving DecidableEq

/-- `String(value)` (`String(undefined)` is also modelled by `vnull`,
whose stringification only feeds truthiness tests in the claims). -/
def jsValToString : JVal → List Char
  | .vstr s => s
  | .vnum n => intToStr n
  | .vbool b => if b then "true".toList else "false".toList
  | .varr es => List.intercalate (",".toList) (es.map jsPrimToString)
  | .vobj _ => "[object Object]".toList
  | .vnull => "null".toList

/-- `Boolean(value)`. -/
def jsTruthy : JVal → Bool
  | .vstr s => !s.isEmpty
  | .vnum n => n != 0
  | .vbool b => b
  | .varr _ => true
  | .vobj _ => true
  | .vnull => false

/-- Output property payloads: `title`, `rich_text`, `multi_select`,
`number`, `checkbox`, `date` (with only the optional `start`/`end`
fields), and the unchanged pass-through of structured values. -/
inductive PropOut
  | title (content : List Char)
  | richText (content : List Char)
  | multiSelect (names : List (List Char))
  | number (n : ℤ)
  | checkbox (b : Bool)
  | dateProp (dstart dend : Option (List Char))
  | passthrough (tag : ℕ)
deriving DecidableEq

/-- The `DateAccumulator` of the source. -/
structure DateAcc where
  dstart : Option (List Char)
  dend : Option (List Char)
  isDatetime : Option Bool
deriving DecidableEq

def emptyDateAcc : DateAcc := ⟨none, none, none⟩

/-- Rightmost-colon split of the remainder after `date:`, with both
sides nonempty: the effect of the greedy groups in
`^date:(.+):(.+)$`.  The auxiliary pass finds the rightmost colon with a
nonempty tail. -/
def splitLastColonAux : List Char → Option (List Char × List Char)
  | [] => none
  | c :: rest =>
    match splitLastColonAux rest with
    | some (a, b) => some (c :: a, b)
    | none => if c = ':' && !rest.isEmpty then some ([], rest) else none

def splitLastColon (r : List Char) : Option (List Char × List Char) :=
  match splitLastColonAux r with
  | some (a, b) => if a.isEmpty then none else some (a, b)
  | none => none

def noLineTerm (l : List Char) : Bool := l.all (fun c => !isLineTermChar c)

/-- `key.match(/^date:(.+):(.+)$/)`: the `date:` prefix, no line
terminators (the regex `.`), then the greedy two-group split. -/
def dateKeyMatch (k : List Char) : Option (List Char × List Char) :=
  if "date:".toList.isPrefixOf k && noLineTerm k then splitLastColon (k.drop 5)
  else none

/-- Keys of an association list (JS object entries). -/
def alKeys {β : Type} (l : List (List Char × β)) : List (List Char) :=
  l.map Prod.fst

def alHas {β : Type} (l : List (List Char × β)) (k : List Char) : Bool :=
  l.any (fun e => e.1 == k)

def alGet {β : Type} (l : List (List Char × β)) (k : List Char) : Option β :=
  match l.find? (fun e => e.1 == k) with
  | some e => some e.2
  | none => none

/-- `obj[k] = v` on a JS object: replace in place when present (keeping
insertion order), else append. -/
def alSet {β : Type} (l : List (List Char × β)) (k : List Char) (v : β) :
    List (List Char × β) :=
  if alHas l k then l.map (fun e => if e.1 == k then (k, v) else e)
  else l ++ [(k, v)]

/-- One `field` assignment into a date accumulator: `start`/`end` store
`String(value)`, `is_datetime` stores `Boolean(value)`, anything else is
ignored (the accumulator itself was still created). -/
def accApplyField (acc : DateAcc) (field : List Char) (v : JVal) : DateAcc :=
  if field = "start".toList then { acc with dstart := some (jsValToString v) }
  else if field = "end".toList then { acc with dend := some (jsValToString v) }
  else if field = "is_datetime".toList then { acc with isDatetime := some (jsTruthy v) }
  else acc

/-- One iteration of the main `for` loop of `buildProperties` over the
state (result object, date accumulators). -/
def bpStep (st : List (List Char × PropOut) × List (List Char × DateAcc))
    (kv : List Char × JVal) :
    List (List Char × PropOut) × List (List Char × DateAcc) :=
  let result := st.1
  let accs := st.2
  let key := kv.1
  let value := kv.2
  match dateKeyMatch key with
  | some (propName, field) =>
    let acc := (alGet accs propName).getD emptyDateAcc
    (result, alSet accs propName (accApplyField acc field value))
  | none =>
    match value with
    | .vstr s =>
      if key = "Name".toList then (alSet result key (.title s), accs)
      else (alSet result key (.richText s), accs)
    | .varr es => (alSet result key (.multiSelect (es.map jsPrimToString)), accs)
    | .vnum n => (alSet result key (.number n), accs)
    | .vbool b => (alSet result key (.checkbox b), accs)
    | .vobj tag => (alSet result key (.passthrough tag), accs)
    | .vnull => (result, accs)

/-- `if (acc.start) date.start = acc.start`: present and nonempty. -/
def optTruthy : Option (List Char) → Option (List Char)
  | some s => if s.isEmpty then none else some s
  | none => none

/-- The `date` value emitted for one accumulator: only `start` and `end`
are ever copied, and only when truthy. -/
def emitDate (acc : DateAcc) : PropOut :=
  .dateProp (optTruthy acc.dstart) (optTruthy acc.dend)

/-- One step of the final loop over accumulators:
`result[propName] = { date }`. -/
def bpEmit (r : List (List Char × PropOut)) (nacc : List Char × DateAcc) :
    List (List Char × PropOut) :=
  alSet r nacc.1 (emitDate nacc.2)

/-- `buildProperties` from `property-builder`: the main loop over the
entries, then one `date` property per accumulator, in insertion
order. -/
def buildProperties (flat : List (List Char × JVal)) :
    List (List Char × PropOut) :=
  let st := flat.foldl bpStep ([], [])
  st.2.foldl bpEmit st.1

/-- The `start`/`end` components of an accumulator — everything the
emitted `date` value can depend on. -/
def stripAcc (acc : DateAcc) : Option (List Char) × Option (List Char) :=
  (acc.dstart, acc.dend)

/-- Date accumulators up to their `is_datetime` component. -/
def accDates (l : List (List Char × DateAcc)) :
    List (List Char × (Option (List Char) × Option (List Char))) :=
  l.map (fun e => (e.1, stripAcc e.2))

/-- The documented scalar type mapping of the spec (used only on
string/number/boolean/array values; the last two cases are out of the
claims' domain). -/
def scalarPropOut : JVal → PropOut
  | .vstr s => .richText s
  | .vnum n => .number n
  | .vbool b => .checkbox b
  | .varr es => .multiSelect (es.map jsPrimToString)
  | .vobj tag => .passthrough tag
  | .vnull => .passthrough 0

/-- A sample flat property map exercising title, date-shorthand and
null entries. -/
def c4SampleFlat : List (List Char × JVal) :=
  [("Name".toList, .vstr ("Page".toList)),
   ("date:Due:start".toList, .vstr ("2026-03-01".toList)),
   ("Gone".toList, .vnull)]

/-- A sample all-scalar flat property map. -/
def c4ScalarFlat : List (List Char × JVal) :=
  [("Score".toList, .vnum 42),
   ("Tags".toList, .varr [.ps ("a".toList), .ps ("b".toList)])]

/-- Scalar string/number/boolean/array values. -/
def isScalarVal : JVal → Bool
  | .vstr _ => true
  | .vnum _ => true
  | .vbool _ => true
  | .varr _ => true
  | .vobj _ => false
  | .vnull => false

end Noty

namespace Noty

example : parseInlineFormatting ("a *b* c".toList) =
    [mkPlain ("a ".toList), mkItalic ("b".toList), mkPlain (" c".toList)] := by
  decide

example : parseInlineFormatting ("***x***".toList) = [mkBoldItalic ("x".toList)] := by
  decide

example : richTextToMarkdown [mkBoldItalic ("x".toList)] = "***x***".toList := by
  decide

example : parseInlineFormatting ("[a](b)".toList) = [mkLink ("a".toList) ("b".toList)] := by
  decide

example : markdownToBlocks ("# Title".toList) = [.heading1 [mkPlain ("Title".toList)]] := by
  decide

example : markdownToBlocks ("```ts\nconst x = 1;\n```".toList) =
    [.codeB [mkPlain ("const x = 1;".toList)] ("ts".toList)] := by
  decide

example : markdownToBlocks ("```\nsome code\n```".toList) =
    [.codeB [mkPlain ("some code".toList)] ("plain text".toList)] := by
  decide

example : markdownToBlocks ("".toList) = [] := by decide

example : markdownToBlocks ("Line 1\n\nLine 2".toList) =
    [.paragraph [mkPlain ("Line 1".toList)], .paragraph [mkPlain ("Line 2".toList)]] := by
  decide

example : markdownToBlocks ("---".toList) = [.dividerB] := by decide

example : markdownToBlocks ("- Item 1\n- Item 2".toList) =
    [.bulleted [mkPlain ("Item 1".toList)], .bulleted [mkPlain ("Item 2".toList)]] := by
  decide

example :
    blocksToMarkdown
      [⟨"i1".toList, false, .tableRow [[mkPlain ("a1".toList)], [mkPlain ("a2".toList)]]⟩,
       ⟨"i2".toList, false, .tableRow [[mkPlain ("b1".toList)], [mkPlain ("b2".toList)]]⟩] 0 =
    "| a1 | a2 |\n| --- | --- |\n| b1 | b2 |".toList := by
  decide

example :
    blocksToMarkdown [⟨"i".toList, false,
      .paragraph [mkPlain ("Hello ".toList), mkBold ("world".toList)]⟩] 0 =
    "Hello **world**".toList := by
  decide

example : extractNotionId ("abc123def4567890abcdef1234567890".toList) =
    "abc123de-f456-7890-abcd-ef1234567890".toList := by
  decide

example : extractNotionId ("ABC123DE-F456-7890-ABCD-EF1234567890".toList) =
    "abc123de-f456-7890-abcd-ef1234567890".toList := by
  decide

example : extractNotionId
    ("https://www.notion.so/ws/Page-Title-abc123def4567890abcdef1234567890".toList) =
    "abc123de-f456-7890-abcd-ef1234567890".toList := by
  decide

example : parseFloatQ ("0.01".toList) = some (mkRat 1 100) := by decide

example : parseFloatQ ("abc".toList) = none := by decide

example : parseFloatQ ("1.5e2".toList) = some 150 := by decide

example :
    withRetrySim (fun n => if n = 0 then .err (.objVal (some (.snum 429)) none ("rl".toList))
      else .ok (0 : ℤ)) 3 1 10 =
    ([1], .success 0, 2) := by
  norm_num [withRetrySim, retryGo, isRetryable, delayFor, getRetryAfterMs, jsMin]

example :
    withRetrySim ((fun _ => .err (.objVal (some (.snum 404)) none ("nf".toList))) :
      ℕ → Outcome ℤ) 3 1 10 =
    ([], .failure (.objVal (some (.snum 404)) none ("nf".toList)), 1) := by
  norm_num [withRetrySim, retryGo, isRetryable]

example :
    withRetrySim ((fun _ => .err (.objVal (some (.snum 429)) none ("rl".toList))) :
      ℕ → Outcome ℤ) 2 1 10 =
    ([1, 2], .failure (.objVal (some (.snum 429)) none ("rl".toList)), 3) := by
  norm_num [withRetrySim, retryGo, isRetryable, delayFor, getRetryAfterMs, jsMin]

example :
    buildProperties [("Name".toList, .vstr ("Test Title".toList))] =
    [("Name".toList, .title ("Test Title".toList))] := by
  decide

example :
    buildProperties [("Tags".toList, .varr [.ps ("tag1".toList), .ps ("tag2".toList)])] =
    [("Tags".toList, .multiSelect [("tag1".toList), ("tag2".toList)])] := by
  decide

example :
    buildProperties
      [("date:Due:start".toList, .vstr ("2026-03-01".toList)),
       ("date:Due:end".toList, .vstr ("2026-03-02".toList))] =
    [("Due".toList, .dateProp (some ("2026-03-01".toList)) (some ("2026-03-02".toList)))] := by
  decide

example :
    buildProperties [("Score".toList, .vnum 42), ("Done".toList, .vbool true),
      ("Gone".toList, .vnull)] =
    [("Score".toList, .number 42), ("Done".toList, .checkbox true)] := by
  decide

/-- Some suffix of the line starts a recognized inline token (the loop's
`pattern.exec` finds a match somewhere). -/
def hasMatch : List Char → Bool
  | [] => false
  | c :: cs => (matchAt (c :: cs)).isSome || hasMatch cs

/-- The characters the inline pattern treats as delimiters. -/
def isInlineDelim (c : Char) : Bool :=
  c = '*' || c = '~' || c = btChar || c = '[' || c = ']' || c = '(' || c = ')'

/-- Nonempty text with no inline delimiter characters. -/
def cleanText (t : List Char) : Bool :=
  !t.isEmpty && t.all (fun c => !isInlineDelim c)

/-- A span of one of the supported shapes (plain, bold, italic,
bold+italic, strikethrough, code, or an unstyled link) whose text (and
URL, for links) is clean. -/
def cleanSpan (rt : RichTextObject) : Bool :=
  cleanText rt.text.content &&
  (rt == mkPlain rt.text.content || rt == mkBold rt.text.content ||
   rt == mkItalic rt.text.content || rt == mkBoldItalic rt.text.content ||
   rt == mkStrike rt.text.content || rt == mkCode rt.text.content ||
   (match rt.text.link with
    | some u => cleanText u && rt == mkLink rt.text.content u
    | none => false))

/-- An unstyled, link-free span. -/
def isPlainSpan (rt : RichTextObject) : Bool := rt == mkPlain rt.text.content

/-- No two adjacent plain spans (two adjacent plain spans fuse into one
plain span on re-parsing). -/
def noTwoPlain : List RichTextObject → Bool
  | a :: b :: rest => !(isPlainSpan a && isPlainSpan b) && noTwoPlain (b :: rest)
  | _ => true

end Noty


namespace Noty

/-! ## Retry-policy lemmas -/

theorem retryGo_ok {α : Type} {fn : ℕ → Outcome α} {base maxD : ℚ}
    {attempt : ℕ} {v : α} (remaining : ℕ) (delays : List ℚ)
    (h : fn attempt = .ok v) :
    retryGo fn base maxD attempt remaining delays = (delays, .success v, attempt + 1) := by
  unfold retryGo
  rw [h]

theorem retryGo_err_zero {α : Type} {fn : ℕ → Outcome α} {base maxD : ℚ}
    {attempt : ℕ} {e : JsVal} (delays : List ℚ)
    (h : fn attempt = .err e) :
    retryGo fn base maxD attempt 0 delays = (delays, .failure e, attempt + 1) := by
  unfold retryGo
  rw [h]

theorem retryGo_err_stop {α : Type} {fn : ℕ → Outcome α} {base maxD : ℚ}
    {attempt : ℕ} {e : JsVal} (r : ℕ) (delays : List ℚ)
    (h : fn attempt = .err e) (hr : isRetryable e = false) :
    retryGo fn base maxD attempt (r + 1) delays = (delays, .failure e, attempt + 1) := by
  unfold retryGo
  rw [h]
  simp [hr]

theorem retryGo_err_retry {α : Type} {fn : ℕ → Outcome α} {base maxD : ℚ}
    {attempt : ℕ} {e : JsVal} (r : ℕ) (delays : List ℚ)
    (h : fn attempt = .err e) (hr : isRetryable e = true) :
    retryGo fn base maxD attempt (r + 1) delays =
      retryGo fn base maxD (attempt + 1) r
        (delays ++ [delayFor e attempt base maxD]) := by
  conv =>
    lhs
    unfold retryGo
  rw [h]
  simp [hr]

end Noty

namespace Noty

/-- The delays list produced by the loop extends the accumulator. -/
theorem retryGo_delays_prefix {α : Type} (fn : ℕ → Outcome α) (base maxD : ℚ) :
    ∀ (remaining attempt : ℕ) (delays : List ℚ),
      ∃ suffix, (retryGo fn base maxD attempt remaining delays).1 = delays ++ suffix := by
  intro remaining
  induction remaining with
  | zero =>
    intro attempt delays
    cases h : fn attempt with
    | ok v => exact ⟨[], by rw [retryGo_ok _ _ h]; simp⟩
    | err e => exact ⟨[], by rw [retryGo_err_zero _ h]; simp⟩
  | succ r ih =>
    intro attempt delays
    cases h : fn attempt with
    | ok v => exact ⟨[], by rw [retryGo_ok _ _ h]; simp⟩
    | err e =>
      by_cases hr : isRetryable e = true
      · obtain ⟨suffix, hs⟩ := ih (attempt + 1) (delays ++ [delayFor e attempt base maxD])
        refine ⟨delayFor e attempt base maxD :: suffix, ?_⟩
        rw [retryGo_err_retry _ _ h hr, hs, List.append_assoc]
        rfl
      · refine ⟨[], ?_⟩
        rw [retryGo_err_stop _ _ h (Bool.eq_false_iff.mpr hr)]
        simp

/-- If every attempt up to `attempt + remaining` fails retryably, the
loop ends in failure of the last error after `attempt + remaining + 1`
invocations, having recorded one delay per retry. -/
theorem retryGo_all_fail {α : Type} (fn : ℕ → Outcome α) (base maxD : ℚ) :
    ∀ (remaining attempt : ℕ) (delays : List ℚ),
      (∀ k, k ≤ attempt + remaining → ∃ ek, fn k = .err ek ∧ isRetryable ek = true) →
      ∀ e, fn (attempt + remaining) = .err e →
      (retryGo fn base maxD attempt remaining delays).2.1 = .failure e ∧
      (retryGo fn base maxD attempt remaining delays).2.2 = attempt + remaining + 1 ∧
      (retryGo fn base maxD attempt remaining delays).1.length =
        delays.length + remaining := by
  intro remaining
  induction remaining with
  | zero =>
    intro attempt delays _ e he
    simp only [Nat.add_zero] at he ⊢
    rw [retryGo_err_zero _ he]
    simp
  | succ r ih =>
    intro attempt delays hall e he
    obtain ⟨ea, hea, hra⟩ := hall attempt (Nat.le_add_right _ _)
    rw [retryGo_err_retry _ _ hea hra]
    have hall' : ∀ k, k ≤ (attempt + 1) + r →
        ∃ ek, fn k = .err ek ∧ isRetryable ek = true := by
      intro k hk
      exact hall k (by omega)
    have he' : fn ((attempt + 1) + r) = .err e := by
      have h2 : (attempt + 1) + r = attempt + (r + 1) := by omega
      rw [h2]
      exact he
    obtain ⟨h1, h2, h3⟩ :=
      ih (attempt + 1) (delays ++ [delayFor ea attempt base maxD]) hall' e he'
    refine ⟨h1, by omega, ?_⟩
    rw [h3]
    simp
    omega

/-- The delay recorded for retry attempt `attempt + n` (all earlier
attempts from `attempt` on having failed retryably) is `delayFor` of
that attempt's error. -/
theorem retryGo_delay_get {α : Type} (fn : ℕ → Outcome α) (base maxD : ℚ) :
    ∀ (n remaining attempt : ℕ) (delays : List ℚ),
      n < remaining →
      (∀ k, k ≤ attempt + n → ∃ ek, fn k = .err ek ∧ isRetryable ek = true) →
      ∀ e, fn (attempt + n) = .err e →
      (retryGo fn base maxD attempt remaining delays).1[delays.length + n]? =
        some (delayFor e (attempt + n) base maxD) := by
  intro n
  induction n with
  | zero =>
    intro remaining attempt delays hrem hall e he
    simp only [Nat.add_zero] at he ⊢
    obtain ⟨r, rfl⟩ : ∃ r, remaining = r + 1 := ⟨remaining - 1, by omega⟩
    have hra : isRetryable e = true := by
      obtain ⟨ek, hek, hrk⟩ := hall attempt (Nat.le_refl _)
      rw [he] at hek
      cases hek
      exact hrk
    rw [retryGo_err_retry _ _ he hra]
    obtain ⟨suffix, hs⟩ :=
      retryGo_delays_prefix fn base maxD r (attempt + 1)
        (delays ++ [delayFor e attempt base maxD])
    rw [hs, List.append_assoc, List.getElem?_append_right (by simp)]
    simp
  | succ n ih =>
    intro remaining attempt delays hrem hall e he
    obtain ⟨r, rfl⟩ : ∃ r, remaining = r + 1 := ⟨remaining - 1, by omega⟩
    obtain ⟨ea, hea, hra⟩ := hall attempt (Nat.le_add_right _ _)
    rw [retryGo_err_retry _ _ hea hra]
    have hall' : ∀ k, k ≤ (attempt + 1) + n →
        ∃ ek, fn k = .err ek ∧ isRetryable ek = true := by
      intro k hk
      exact hall k (by omega)
    have he' : fn ((attempt + 1) + n) = .err e := by
      have h2 : (attempt + 1) + n = attempt + (n + 1) := by omega
      rw [h2]
      exact he
    have hres := ih r (attempt + 1) (delays ++ [delayFor ea attempt base maxD])
      (by omega) hall' e he'
    have hlen : (delays ++ [delayFor ea attempt base maxD]).length + n =
        delays.length + (n + 1) := by
      simp
      omega
    rw [hlen] at hres
    have hidx : (attempt + 1) + n = attempt + (n + 1) := by omega
    rw [hidx] at hres
    exact hres

end Noty

namespace Noty

/-- C3: `withRetry` retries exactly the errors with numeric status 429
or ≥ 500; a non-retryable first failure is re-thrown unchanged after one
invocation; `maxRetries + 1` consecutive retryable failures end with the
most recent error re-thrown unchanged after `maxRetries + 1` invocations
and `maxRetries` waits. -/
theorem C3_retry_classification_and_counts :
    (∀ e : JsVal, isRetryable e = true ↔
      ∃ q : ℚ, statusOf e = some (.snum q) ∧ (q = 429 ∨ 500 ≤ q)) ∧
    (∀ (α : Type) (fn : ℕ → Outcome α) (maxRetries : ℕ) (base maxD : ℚ) (e : JsVal),
      fn 0 = .err e → isRetryable e = false →
      withRetrySim fn maxRetries base maxD = ([], .failure e, 1)) ∧
    (∀ (α : Type) (fn : ℕ → Outcome α) (maxRetries : ℕ) (base maxD : ℚ) (e : JsVal),
      (∀ k, k ≤ maxRetries → ∃ ek, fn k = .err ek ∧ isRetryable ek = true) →
      fn maxRetries = .err e →
      (withRetrySim fn maxRetries base maxD).2.1 = RResult.failure e ∧
      (withRetrySim fn maxRetries base maxD).2.2 = maxRetries + 1 ∧
      (withRetrySim fn maxRetries base maxD).1.length = maxRetries) := by
  refine ⟨?_, ?_, ?_⟩
  · intro e
    cases e with
    | nonObject v => simp [isRetryable, statusOf]
    | objVal st hd msg =>
      cases st with
      | none => simp [isRetryable, statusOf]
      | some sv =>
        cases sv with
        | sother => simp [isRetryable, statusOf]
        | snum q =>
          by_cases hq : q = 429
          · subst hq
            simp [isRetryable, statusOf]
          · simp only [isRetryable, statusOf, if_neg hq]
            constructor
            · intro h
              exact ⟨q, rfl, Or.inr (of_decide_eq_true h)⟩
            · rintro ⟨q', hq', hor⟩
              obtain rfl : q = q' := by
                simpa using hq'
              rcases hor with h | h
              · exact absurd h hq
              · exact decide_eq_true h
  · intro α fn maxRetries base maxD e h0 hnr
    unfold withRetrySim
    cases maxRetries with
    | zero => rw [retryGo_err_zero _ h0]
    | succ r => rw [retryGo_err_stop _ _ h0 hnr]
  · intro α fn maxRetries base maxD e hall he
    unfold withRetrySim
    have hres := retryGo_all_fail fn base maxD maxRetries 0 []
      (by simpa using hall) e (by simpa using he)
    simpa using hres

/-- Witness for `C3_retry_classification_and_counts` at concrete
inputs. -/
theorem C3_witness :
    (isRetryable (.objVal (some (.snum 429)) none ("rl".toList)) = true) ∧
    (withRetrySim ((fun _ => .err (.objVal (some (.snum 404)) none ("nf".toList))) :
        ℕ → Outcome ℕ) 3 1000 30000 =
      ([], .failure (.objVal (some (.snum 404)) none ("nf".toList)), 1)) ∧
    ((withRetrySim ((fun _ => .err (.objVal (some (.snum 429)) none ("rl".toList))) :
        ℕ → Outcome ℕ) 2 1000 30000).2.2 = 3) := by
  refine ⟨?_, ?_, ?_⟩
  · exact (C3_retry_classification_and_counts.1 _).mpr ⟨429, rfl, Or.inl rfl⟩
  · exact C3_retry_classification_and_counts.2.1 ℕ _ 3 1000 30000 _ rfl
      (by norm_num [isRetryable])
  · exact (C3_retry_classification_and_counts.2.2 ℕ _ 2 1000 30000 _
      (fun k _ => ⟨_, rfl, by norm_num [isRetryable]⟩) rfl).2.1

end Noty

namespace Noty

/-- C2 (amended): the delay before retry attempt `n` is the parsed
`retry-after` seconds × 1000 whenever the header string parses as a
float — of any sign, the code performs no non-negativity check — and
`baseDelayMs * 2^n` otherwise; either way passed through
`Math.min(·, maxDelayMs)`; and that is exactly the delay `withRetry`
records for attempt `n`. -/
theorem C2_delay_computation :
    (∀ (st : Option SVal) (s msg : List Char) (sec : ℚ),
      parseFloatQ s = some sec →
      getRetryAfterMs (.objVal st (some (.hobj (some (.hstr s)))) msg) =
        some (sec * 1000)) ∧
    (∀ (e : JsVal) (n : ℕ) (base maxD q : ℚ),
      getRetryAfterMs e = some q →
      delayFor e n base maxD = jsMin q maxD) ∧
    (∀ (e : JsVal) (n : ℕ) (base maxD : ℚ),
      getRetryAfterMs e = none →
      delayFor e n base maxD = jsMin (base * ((2 ^ n : ℕ) : ℚ)) maxD) ∧
    (∀ (α : Type) (fn : ℕ → Outcome α) (maxRetries n : ℕ) (base maxD : ℚ) (e : JsVal),
      (∀ k, k ≤ n → ∃ ek, fn k = .err ek ∧ isRetryable ek = true) →
      n < maxRetries → fn n = .err e →
      (withRetrySim fn maxRetries base maxD).1[n]? =
        some (delayFor e n base maxD)) := by
  refine ⟨?_, ?_, ?_, ?_⟩
  · intro st s msg sec hp
    simp [getRetryAfterMs, hp]
  · intro e n base maxD q hq
    simp [delayFor, hq]
  · intro e n base maxD hq
    simp [delayFor, hq]
  · intro α fn maxRetries n base maxD e hall hlt he
    unfold withRetrySim
    have hres := retryGo_delay_get fn base maxD n maxRetries 0 [] hlt
      (by simpa using hall) e (by simpa using he)
    simpa using hres

/-- Witness for `C2_delay_computation` at concrete inputs: a `2.5`
second header, a header-less error, and the recorded delay of the first
retry. -/
theorem C2_witness :
    (getRetryAfterMs (.objVal (some (.snum 429))
        (some (.hobj (some (.hstr ("2.5".toList))))) []) =
      some (mkRat 25 10 * 1000)) ∧
    (delayFor (.objVal (some (.snum 429)) none []) 1 1000 30000 =
      jsMin (1000 * ((2 ^ 1 : ℕ) : ℚ)) 30000) ∧
    ((withRetrySim ((fun _ => .err (.objVal (some (.snum 500)) none [])) :
        ℕ → Outcome ℕ) 3 1000 30000).1[0]? =
      some (delayFor (.objVal (some (.snum 500)) none []) 0 1000 30000)) := by
  refine ⟨?_, ?_, ?_⟩
  · exact C2_delay_computation.1 (some (.snum 429)) ("2.5".toList) [] (mkRat 25 10)
      (by decide)
  · exact C2_delay_computation.2.2.1 _ 1 1000 30000 (by decide)
  · exact C2_delay_computation.2.2.2 ℕ _ 3 0 1000 30000 _
      (fun k _ => ⟨_, rfl, by norm_num [isRetryable]⟩) (by norm_num) rfl

/-- Counterexample to C2 as stated: for a `retry-after` header of
`"-5"` — parseable, but not as a *non-negative* number — the claim says
the delay is the exponential `baseDelayMs * 2^0 = 1000` (capped), but
the code uses `-5 * 1000 = -5000`. -/
theorem C2_counterexample :
    delayFor (.objVal (some (.snum 429))
        (some (.hobj (some (.hstr ("-5".toList))))) []) 0 1000 30000 = -5000 ∧
    jsMin (1000 * ((2 ^ 0 : ℕ) : ℚ)) 30000 = 1000 ∧
    (-5000 : ℚ) ≠ 1000 := by
  have hp : parseFloatQ ("-5".toList) = some (mkRat (-5) 1) := by decide
  refine ⟨?_, ?_, by norm_num⟩
  · have hg : getRetryAfterMs (.objVal (some (.snum 429))
        (some (.hobj (some (.hstr ("-5".toList))))) []) =
        some (mkRat (-5) 1 * 1000) := by
      simp only [getRetryAfterMs]
      rw [hp]
    simp only [delayFor, hg, Option.getD_some]
    norm_num [jsMin]
  · norm_num [jsMin]

end Noty

namespace Noty

/-! ## Association-list lemmas for the property flattener -/

theorem alHas_iff_mem {β : Type} (l : List (List Char × β)) (k : List Char) :
    alHas l k = true ↔ k ∈ alKeys l := by
  unfold alHas alKeys
  rw [List.any_eq_true]
  constructor
  · rintro ⟨e, he, hk⟩
    exact List.mem_map.mpr ⟨e, he, beq_iff_eq.mp hk⟩
  · intro h
    obtain ⟨e, he, hk⟩ := List.mem_map.mp h
    exact ⟨e, he, beq_iff_eq.mpr hk⟩

theorem alKeys_alSet_has {β : Type} (l : List (List Char × β)) (k : List Char) (v : β)
    (h : alHas l k = true) : alKeys (alSet l k v) = alKeys l := by
  unfold alSet
  rw [if_pos h]
  unfold alKeys
  rw [List.map_map]
  apply List.map_congr_left
  intro e _
  by_cases he : e.1 = k
  · simp [he]
  · simp [he]

theorem alKeys_alSet_not_has {β : Type} (l : List (List Char × β)) (k : List Char) (v : β)
    (h : alHas l k = false) : alKeys (alSet l k v) = alKeys l ++ [k] := by
  unfold alSet
  rw [if_neg (by simp [h])]
  unfold alKeys
  simp

theorem mem_alKeys_alSet {β : Type} (l : List (List Char × β)) (k v : _) (k' : List Char) :
    k' ∈ alKeys (alSet l k (v : β)) ↔ k' ∈ alKeys l ∨ k' = k := by
  by_cases h : alHas l k = true
  · rw [alKeys_alSet_has l k v h]
    constructor
    · exact Or.inl
    · rintro (hm | rfl)
      · exact hm
      · exact (alHas_iff_mem l k').mp h
  · rw [alKeys_alSet_not_has l k v (by simpa using h)]
    simp

theorem alSet_mem_of_mem {β : Type} (l : List (List Char × β)) (k : List Char) (v : β)
    (k' : List Char) (p : β) (h : (k', p) ∈ alSet l k v) :
    (k', p) ∈ l ∨ p = v := by
  unfold alSet at h
  by_cases hh : alHas l k = true
  · rw [if_pos hh] at h
    obtain ⟨e, he, heq⟩ := List.mem_map.mp h
    by_cases hek : e.1 = k
    · right
      rw [if_pos (by simp [hek])] at heq
      injection heq with h1 h2
      exact h2.symm
    · left
      rw [if_neg (by simp [hek])] at heq
      rwa [heq] at he
  · rw [if_neg (by simp [hh])] at h
    rcases List.mem_append.mp h with hm | hm
    · exact Or.inl hm
    · right
      simp at hm
      exact hm.2

end Noty

namespace Noty

/-! ## Property-flattener relation lemmas (`is_datetime` irrelevance) -/

theorem alHas_map_snd {β γ : Type} (f : β → γ) (l : List (List Char × β)) (k : List Char) :
    alHas (l.map (fun e => (e.1, f e.2))) k = alHas l k := by
  induction l with
  | nil => rfl
  | cons e t ih =>
    unfold alHas at ih ⊢
    simp only [List.map, List.any_cons, ih]

theorem alGet_map_snd {β γ : Type} (f : β → γ) (l : List (List Char × β)) (k : List Char) :
    alGet (l.map (fun e => (e.1, f e.2))) k = (alGet l k).map f := by
  induction l with
  | nil => simp [alGet]
  | cons e t ih =>
    by_cases h : (e.1 == k) = true
    · simp [alGet, List.find?, h]
    · simp only [alGet, List.map, List.find?] at ih ⊢
      rw [Bool.of_not_eq_true h]
      simpa using ih

theorem alSet_map_snd {β γ : Type} (f : β → γ) (l : List (List Char × β))
    (k : List Char) (v : β) :
    (alSet l k v).map (fun e => (e.1, f e.2)) =
      alSet (l.map (fun e => (e.1, f e.2))) k (f v) := by
  unfold alSet
  rw [alHas_map_snd]
  by_cases h : alHas l k = true
  · rw [if_pos h, if_pos h, List.map_map, List.map_map]
    apply List.map_congr_left
    intro e _
    by_cases he : (e.1 == k) = true
    · simp [Function.comp, he]
    · simp [Function.comp, he]
  · rw [if_neg h, if_neg h]
    simp

theorem stripAcc_accApplyField (acc : DateAcc) (field : List Char) (v : JVal) :
    stripAcc (accApplyField acc field v) =
      (if field = "start".toList then (some (jsValToString v), (stripAcc acc).2)
       else if field = "end".toList then ((stripAcc acc).1, some (jsValToString v))
       else stripAcc acc) := by
  unfold accApplyField stripAcc
  split_ifs <;> rfl

theorem emitDate_eq_of_strip {acc₁ acc₂ : DateAcc}
    (h : stripAcc acc₁ = stripAcc acc₂) : emitDate acc₁ = emitDate acc₂ := by
  unfold emitDate
  rw [show acc₁.dstart = acc₂.dstart from congrArg Prod.fst h,
    show acc₁.dend = acc₂.dend from congrArg Prod.snd h]

theorem bpStep_keeps_rel (r : List (List Char × PropOut))
    (a₁ a₂ : List (List Char × DateAcc)) (kv : List Char × JVal)
    (h2 : accDates a₁ = accDates a₂) :
    (bpStep (r, a₁) kv).1 = (bpStep (r, a₂) kv).1 ∧
    accDates (bpStep (r, a₁) kv).2 = accDates (bpStep (r, a₂) kv).2 := by
  cases hd : dateKeyMatch kv.1 with
  | none =>
    unfold bpStep
    cases kv.2 <;> simp only [hd] <;> (try split_ifs) <;> simp [h2]
  | some nf =>
    obtain ⟨name, field⟩ := nf
    unfold bpStep
    simp only [hd]
    refine ⟨trivial, ?_⟩
    have hmap : (alGet a₁ name).map stripAcc = (alGet a₂ name).map stripAcc := by
      have h3 : alGet (accDates a₁) name = alGet (accDates a₂) name := by rw [h2]
      unfold accDates at h3
      rwa [alGet_map_snd, alGet_map_snd] at h3
    have hacc : stripAcc ((alGet a₁ name).getD emptyDateAcc) =
        stripAcc ((alGet a₂ name).getD emptyDateAcc) := by
      cases g1 : alGet a₁ name <;> cases g2 : alGet a₂ name <;>
        rw [g1, g2] at hmap <;> simp_all
    show accDates (alSet a₁ name _) = accDates (alSet a₂ name _)
    unfold accDates
    rw [alSet_map_snd, alSet_map_snd]
    unfold accDates at h2
    rw [h2]
    congr 1
    rw [stripAcc_accApplyField, stripAcc_accApplyField, hacc]

theorem foldl_bpStep_rel (l : List (List Char × JVal)) :
    ∀ (r : List (List Char × PropOut)) (a₁ a₂ : List (List Char × DateAcc)),
      accDates a₁ = accDates a₂ →
      (l.foldl bpStep (r, a₁)).1 = (l.foldl bpStep (r, a₂)).1 ∧
      accDates (l.foldl bpStep (r, a₁)).2 = accDates (l.foldl bpStep (r, a₂)).2 := by
  induction l with
  | nil =>
    intro r a₁ a₂ h2
    exact ⟨rfl, h2⟩
  | cons kv t ih =>
    intro r a₁ a₂ h2
    obtain ⟨hr, ha⟩ := bpStep_keeps_rel r a₁ a₂ kv h2
    simp only [List.foldl]
    obtain ⟨b₁, c₁⟩ : ∃ b c, bpStep (r, a₁) kv = (b, c) := ⟨_, _, rfl⟩
    rcases hs1 : bpStep (r, a₁) kv with ⟨b₁, c₁⟩
    rcases hs2 : bpStep (r, a₂) kv with ⟨b₂, c₂⟩
    rw [hs1, hs2] at hr ha
    simp only at hr ha
    rw [hr]
    exact ih b₂ c₁ c₂ ha

theorem foldl_bpEmit_rel :
    ∀ (a₁ a₂ : List (List Char × DateAcc)) (r : List (List Char × PropOut)),
      accDates a₁ = accDates a₂ →
      a₁.foldl bpEmit r = a₂.foldl bpEmit r := by
  intro a₁
  induction a₁ with
  | nil =>
    intro a₂ r h
    cases a₂ with
    | nil => rfl
    | cons e t => simp [accDates] at h
  | cons e₁ t₁ ih =>
    intro a₂ r h
    cases a₂ with
    | nil => simp [accDates] at h
    | cons e₂ t₂ =>
      unfold accDates at h
      simp only [List.map] at h
      injection h with hh ht
      injection hh with hk hs
      simp only [List.foldl]
      rw [show bpEmit r e₁ = bpEmit r e₂ from by
        unfold bpEmit
        rw [hk, emitDate_eq_of_strip hs]]
      exact ih t₂ (bpEmit r e₂) ht

end Noty

namespace Noty

/-- The main loop only ever writes non-`date` property values. -/
theorem bpStep_fst_shape (r : List (List Char × PropOut))
    (a : List (List Char × DateAcc)) (kv : List Char × JVal) :
    (bpStep (r, a) kv).1 = r ∨
    ∃ key q, (∀ ds de, q ≠ PropOut.dateProp ds de) ∧
      (bpStep (r, a) kv).1 = alSet r key q := by
  unfold bpStep
  cases hd : dateKeyMatch kv.1 with
  | some nf =>
    simp only [hd]
    exact Or.inl trivial
  | none =>
    cases kv.2 with
    | vstr s =>
      simp only [hd]
      split_ifs
      · exact Or.inr ⟨kv.1, .title s, by simp, rfl⟩
      · exact Or.inr ⟨kv.1, .richText s, by simp, rfl⟩
    | varr es => exact Or.inr ⟨kv.1, .multiSelect (es.map jsPrimToString), by simp, by simp [hd]⟩
    | vnum n => exact Or.inr ⟨kv.1, .number n, by simp, by simp [hd]⟩
    | vbool b => exact Or.inr ⟨kv.1, .checkbox b, by simp, by simp [hd]⟩
    | vobj tag => exact Or.inr ⟨kv.1, .passthrough tag, by simp, by simp [hd]⟩
    | vnull =>
      simp only [hd]
      exact Or.inl trivial

theorem bpLoop_result_mem (l : List (List Char × JVal)) :
    ∀ (r : List (List Char × PropOut)) (a : List (List Char × DateAcc))
      (k : List Char) (p : PropOut),
      (k, p) ∈ (l.foldl bpStep (r, a)).1 →
      (k, p) ∈ r ∨ ∀ ds de, p ≠ PropOut.dateProp ds de := by
  induction l with
  | nil =>
    intro r a k p h
    exact Or.inl h
  | cons kv t ih =>
    intro r a k p h
    rcases hs : bpStep (r, a) kv with ⟨r', a'⟩
    rw [List.foldl_cons, hs] at h
    rcases ih r' a' k p h with hm | hnd
    · rcases bpStep_fst_shape r a kv with hshape | ⟨key, q, hq, hshape⟩
      · rw [hs] at hshape
        simp only at hshape
        rw [← hshape]
        exact Or.inl hm
      · rw [hs] at hshape
        simp only at hshape
        rw [hshape] at hm
        rcases alSet_mem_of_mem r key q k p hm with hm2 | rfl
        · exact Or.inl hm2
        · exact Or.inr hq
    · exact Or.inr hnd

theorem bpEmit_foldl_mem (a : List (List Char × DateAcc)) :
    ∀ (r : List (List Char × PropOut)) (k : List Char) (p : PropOut),
      (k, p) ∈ a.foldl bpEmit r → (k, p) ∈ r ∨ ∃ acc, p = emitDate acc := by
  induction a with
  | nil =>
    intro r k p h
    exact Or.inl h
  | cons e t ih =>
    intro r k p h
    rcases ih (bpEmit r e) k p h with hm | hex
    · unfold bpEmit at hm
      rcases alSet_mem_of_mem r e.1 (emitDate e.2) k p hm with hm2 | rfl
      · exact Or.inl hm2
      · exact Or.inr ⟨e.2, rfl⟩
    · exact Or.inr hex

theorem optTruthy_ne_empty (o : Option (List Char)) (s : List Char)
    (h : optTruthy o = some s) : s ≠ [] := by
  cases o with
  | none => simp [optTruthy] at h
  | some t =>
    simp only [optTruthy] at h
    by_cases ht : t.isEmpty
    · rw [if_pos ht] at h
      cases h
    · rw [if_neg ht] at h
      injection h with h
      subst h
      simpa [List.isEmpty_iff] using ht

end Noty

namespace Noty

/-- C10: a `date` property value emitted by `buildProperties` carries at
most `start` and `end`: the accumulated `is_datetime` flag never
influences the output, an accumulated empty-string `start`/`end` is
omitted, and a group with no truthy `start`/`end` emits an empty date
object; every `start`/`end` that does appear is a nonempty string. -/
theorem C10_date_emission :
    (∀ (pre post : List (List Char × JVal)) (k name : List Char) (v₁ v₂ : JVal),
      dateKeyMatch k = some (name, "is_datetime".toList) →
      buildProperties (pre ++ (k, v₁) :: post) =
        buildProperties (pre ++ (k, v₂) :: post)) ∧
    (∀ (k name field : List Char) (v : JVal),
      dateKeyMatch k = some (name, field) →
      (field = "start".toList ∨ field = "end".toList) →
      jsValToString v = [] →
      buildProperties [(k, v)] = [(name, .dateProp none none)]) ∧
    (∀ (flat : List (List Char × JVal)) (k : List Char) (ds de : Option (List Char)),
      (k, PropOut.dateProp ds de) ∈ buildProperties flat →
      (∀ s, ds = some s → s ≠ []) ∧ (∀ s, de = some s → s ≠ [])) := by
  refine ⟨?_, ?_, ?_⟩
  · intro pre post k name v₁ v₂ hk
    have hd1 : ¬(("is_datetime".toList : List Char) = "start".toList) := by decide
    have hd2 : ¬(("is_datetime".toList : List Char) = "end".toList) := by decide
    unfold buildProperties
    rw [List.foldl_append, List.foldl_append]
    rcases hs : pre.foldl bpStep ([], []) with ⟨r, a⟩
    have happ : ∀ v : JVal,
        stripAcc (accApplyField ((alGet a name).getD emptyDateAcc)
          ("is_datetime".toList) v) =
        stripAcc ((alGet a name).getD emptyDateAcc) := by
      intro v
      rw [stripAcc_accApplyField, if_neg hd1, if_neg hd2]
    have key : (bpStep (r, a) (k, v₁)).1 = (bpStep (r, a) (k, v₂)).1 ∧
        accDates (bpStep (r, a) (k, v₁)).2 = accDates (bpStep (r, a) (k, v₂)).2 := by
      unfold bpStep
      simp only [hk]
      refine ⟨trivial, ?_⟩
      unfold accDates
      rw [alSet_map_snd, alSet_map_snd, happ v₁, happ v₂]
    rcases h1 : bpStep (r, a) (k, v₁) with ⟨r₁, a₁⟩
    rcases h2 : bpStep (r, a) (k, v₂) with ⟨r₂, a₂⟩
    rw [h1, h2] at key
    simp only at key
    obtain ⟨hr, ha⟩ := key
    subst hr
    simp only [List.foldl_cons]
    rw [h1, h2]
    obtain ⟨hf1, hf2⟩ := foldl_bpStep_rel post r₁ a₁ a₂ ha
    rcases g1 : post.foldl bpStep (r₁, a₁) with ⟨rf₁, af₁⟩
    rcases g2 : post.foldl bpStep (r₁, a₂) with ⟨rf₂, af₂⟩
    rw [g1, g2] at hf1 hf2
    simp only at hf1 hf2 ⊢
    subst hf1
    exact foldl_bpEmit_rel af₁ af₂ rf₁ hf2
  · intro k name field v hk hf hv
    have hne : ("end".toList : List Char) ≠ "start".toList := by decide
    unfold buildProperties
    simp only [List.foldl_cons, List.foldl_nil]
    unfold bpStep
    simp only [hk]
    rcases hf with rfl | rfl
    · simp [alGet, alSet, alHas, bpEmit, accApplyField, emptyDateAcc, emitDate,
        optTruthy, hv, List.find?]
    · simp [alGet, alSet, alHas, bpEmit, accApplyField, emptyDateAcc, emitDate,
        optTruthy, hv, hne, List.find?]
  · intro flat k ds de h
    unfold buildProperties at h
    rcases hs : flat.foldl bpStep ([], []) with ⟨r, a⟩
    rw [hs] at h
    simp only at h
    rcases bpEmit_foldl_mem a r k (PropOut.dateProp ds de) h with hm | ⟨acc, hacc⟩
    · rcases bpLoop_result_mem flat [] [] k (PropOut.dateProp ds de)
        (by rw [hs]; exact hm) with hin | hnd
      · cases hin
      · exact absurd rfl (hnd ds de)
    · unfold emitDate at hacc
      injection hacc with hds hde
      constructor
      · intro s hsome
        exact optTruthy_ne_empty _ s (by rw [← hds, hsome])
      · intro s hsome
        exact optTruthy_ne_empty _ s (by rw [← hde, hsome])

/-- Witness for `C10_date_emission` at concrete inputs. -/
theorem C10_witness :
    (buildProperties [("date:D:is_datetime".toList, .vbool true)] =
      buildProperties [("date:D:is_datetime".toList, .vbool false)]) ∧
    (buildProperties [("date:D:start".toList, .vstr [])] =
      [("D".toList, .dateProp none none)]) ∧
    ((∀ s, (some ("x".toList) : Option (List Char)) = some s → s ≠ []) ∧
      (∀ s, (none : Option (List Char)) = some s → s ≠ [])) := by
  refine ⟨?_, ?_, ?_⟩
  · exact C10_date_emission.1 [] [] ("date:D:is_datetime".toList) ("D".toList)
      (.vbool true) (.vbool false) (by decide)
  · exact C10_date_emission.2.1 ("date:D:start".toList) ("D".toList)
      ("start".toList) (.vstr []) (by decide) (Or.inl rfl) rfl
  · exact C10_date_emission.2.2
      [("date:D:start".toList, .vstr ("x".toList))] ("D".toList)
      (some ("x".toList)) none (by decide)

end Noty

namespace Noty

/-! ## Key-set lemmas for `buildProperties` (C4) -/

theorem alHas_false_iff {β : Type} (l : List (List Char × β)) (k : List Char) :
    alHas l k = false ↔ k ∉ alKeys l := by
  rw [← alHas_iff_mem]
  constructor
  · intro h hc
    rw [h] at hc
    cases hc
  · intro h
    cases hh : alHas l k
    · rfl
    · exact absurd hh h

theorem alGet_of_mem_nodup {β : Type} (l : List (List Char × β))
    (hnd : (alKeys l).Nodup) (k : List Char) (v : β) (h : (k, v) ∈ l) :
    alGet l k = some v := by
  induction l with
  | nil => cases h
  | cons e t ih =>
    unfold alKeys at hnd
    rw [List.map_cons, List.nodup_cons] at hnd
    rcases List.mem_cons.mp h with rfl | hm
    · simp [alGet, List.find?]
    · have hk : ¬(e.1 == k) = true := by
        intro hc
        rw [beq_iff_eq] at hc
        apply hnd.1
        rw [hc]
        exact List.mem_map.mpr ⟨(k, v), hm, rfl⟩
      simp only [alGet, List.find?]
      rw [Bool.of_not_eq_true hk]
      exact ih hnd.2 hm

theorem dateKeyMatch_none_of_not_prefix (k : List Char)
    (h : ¬("date:".toList.isPrefixOf k = true)) : dateKeyMatch k = none := by
  unfold dateKeyMatch
  rw [if_neg]
  intro hc
  rw [Bool.and_eq_true] at hc
  exact h hc.1

/-- Keys after the final date-emission loop: those of the result plus
the accumulator names. -/
theorem alKeys_bpEmit_foldl (a : List (List Char × DateAcc)) :
    ∀ (r : List (List Char × PropOut)) (k : List Char),
      k ∈ alKeys (a.foldl bpEmit r) ↔ k ∈ alKeys r ∨ k ∈ alKeys a := by
  induction a with
  | nil =>
    intro r k
    rw [List.foldl_nil]
    simp only [alKeys, List.map_nil, List.not_mem_nil, or_false]
  | cons e t ih =>
    intro r k
    rw [List.foldl_cons, ih (bpEmit r e) k]
    unfold bpEmit
    rw [mem_alKeys_alSet]
    unfold alKeys
    rw [List.map_cons, List.mem_cons]
    tauto

/-- Key contribution of a single main-loop step. -/
theorem bpStep_keys (r : List (List Char × PropOut))
    (a : List (List Char × DateAcc)) (kv : List Char × JVal) :
    (∀ k, k ∈ alKeys (bpStep (r, a) kv).1 ↔
      k ∈ alKeys r ∨ (dateKeyMatch kv.1 = none ∧ kv.2 ≠ JVal.vnull ∧ k = kv.1)) ∧
    (∀ k, k ∈ alKeys (bpStep (r, a) kv).2 ↔
      k ∈ alKeys a ∨ ∃ f, dateKeyMatch kv.1 = some (k, f)) := by
  cases hd : dateKeyMatch kv.1 with
  | some nf =>
    obtain ⟨name, f⟩ := nf
    unfold bpStep
    simp only [hd]
    constructor
    · intro k
      simp [hd]
    · intro k
      rw [mem_alKeys_alSet]
      simp [hd, eq_comm]
  | none =>
    unfold bpStep
    cases hv : kv.2 with
    | vstr s =>
      simp only [hd]
      split_ifs with hn
      · exact ⟨fun k => by rw [mem_alKeys_alSet]; simp [hd, eq_comm],
          fun k => by simp [hd]⟩
      · exact ⟨fun k => by rw [mem_alKeys_alSet]; simp [hd, eq_comm],
          fun k => by simp [hd]⟩
    | varr es =>
      simp only [hd]
      exact ⟨fun k => by rw [mem_alKeys_alSet]; simp [hd, eq_comm],
        fun k => by simp [hd]⟩
    | vnum n =>
      simp only [hd]
      exact ⟨fun k => by rw [mem_alKeys_alSet]; simp [hd, eq_comm],
        fun k => by simp [hd]⟩
    | vbool b =>
      simp only [hd]
      exact ⟨fun k => by rw [mem_alKeys_alSet]; simp [hd, eq_comm],
        fun k => by simp [hd]⟩
    | vobj tag =>
      simp only [hd]
      exact ⟨fun k => by rw [mem_alKeys_alSet]; simp [hd, eq_comm],
        fun k => by simp [hd]⟩
    | vnull =>
      simp only [hd]
      exact ⟨fun k => by simp [hd], fun k => by simp [hd]⟩

end Noty

namespace Noty

/-- The key-set invariant of the whole flattener, generalized over the
loop state. -/
theorem bp_keys_invariant (l : List (List Char × JVal)) :
    ∀ (r : List (List Char × PropOut)) (a : List (List Char × DateAcc)) (k : List Char),
      k ∈ alKeys ((l.foldl bpStep (r, a)).2.foldl bpEmit (l.foldl bpStep (r, a)).1) ↔
        k ∈ alKeys r ∨ k ∈ alKeys a ∨
        (∃ v, (k, v) ∈ l ∧ v ≠ JVal.vnull ∧ dateKeyMatch k = none) ∨
        (∃ kv, kv ∈ l ∧ ∃ f, dateKeyMatch kv.1 = some (k, f)) := by
  induction l with
  | nil =>
    intro r a k
    rw [List.foldl_nil]
    rw [alKeys_bpEmit_foldl]
    simp only [List.not_mem_nil, false_and, exists_false, or_false, exists_and_left]
  | cons kv t ih =>
    intro r a k
    rcases hstep : bpStep (r, a) kv with ⟨r', a'⟩
    rw [List.foldl_cons, hstep, ih r' a' k]
    obtain ⟨hfst, hsnd⟩ := bpStep_keys r a kv
    have h1 := hfst k
    have h2 := hsnd k
    rw [hstep] at h1 h2
    simp only at h1 h2
    rw [h1, h2]
    constructor
    · rintro ((hr | ⟨hdn, hnv, rfl⟩) | (ha | ⟨f, hf⟩) | hC | hD)
      · exact Or.inl hr
      · refine Or.inr (Or.inr (Or.inl ⟨kv.2, ?_, hnv, hdn⟩))
        exact List.mem_cons.mpr (Or.inl Prod.mk.eta)
      · exact Or.inr (Or.inl ha)
      · exact Or.inr (Or.inr (Or.inr ⟨kv, List.mem_cons_self kv t, f, hf⟩))
      · obtain ⟨v, hm, hnv, hdn⟩ := hC
        exact Or.inr (Or.inr (Or.inl ⟨v, List.mem_cons_of_mem kv hm, hnv, hdn⟩))
      · obtain ⟨kv2, hm, f, hf⟩ := hD
        exact Or.inr (Or.inr (Or.inr ⟨kv2, List.mem_cons_of_mem kv hm, f, hf⟩))
    · rintro (hr | ha | hC | hD)
      · exact Or.inl (Or.inl hr)
      · exact Or.inr (Or.inl (Or.inl ha))
      · obtain ⟨v, hm, hnv, hdn⟩ := hC
        rcases List.mem_cons.mp hm with heq | hm2
        · have hk : k = kv.1 := congrArg Prod.fst heq
          have hv : v = kv.2 := congrArg Prod.snd heq
          subst hv
          subst hk
          exact Or.inl (Or.inr ⟨hdn, hnv, rfl⟩)
        · exact Or.inr (Or.inr (Or.inl ⟨v, hm2, hnv, hdn⟩))
      · obtain ⟨kv2, hm, f, hf⟩ := hD
        rcases List.mem_cons.mp hm with heq | hm2
        · subst heq
          exact Or.inr (Or.inl (Or.inr ⟨f, hf⟩))
        · exact Or.inr (Or.inr (Or.inr ⟨kv2, hm2, f, hf⟩))

/-- The main loop over an all-scalar, `Name`-free, `date:`-free slice is
plain appending in type-mapped form. -/
theorem bp_loop_scalar (l : List (List Char × JVal)) :
    ∀ (r : List (List Char × PropOut)) (a : List (List Char × DateAcc)),
      (∀ kv, kv ∈ l → kv.1 ≠ "Name".toList ∧
        "date:".toList.isPrefixOf kv.1 = false ∧ isScalarVal kv.2 = true) →
      (∀ kv, kv ∈ l → kv.1 ∉ alKeys r) →
      (alKeys l).Nodup →
      l.foldl bpStep (r, a) =
        (r ++ l.map (fun kv => (kv.1, scalarPropOut kv.2)), a) := by
  induction l with
  | nil =>
    intro r a _ _ _
    simp
  | cons kv t ih =>
    intro r a hcond hfresh hnd
    have hnd2 : kv.1 ∉ alKeys t ∧ (alKeys t).Nodup := by
      unfold alKeys at hnd ⊢
      rw [List.map_cons, List.nodup_cons] at hnd
      exact hnd
    obtain ⟨hname, hpre, hscal⟩ := hcond kv (List.mem_cons_self kv t)
    have hdn : dateKeyMatch kv.1 = none := by
      apply dateKeyMatch_none_of_not_prefix
      rw [hpre]
      simp
    have hhas : alHas r kv.1 = false :=
      (alHas_false_iff r kv.1).mpr (hfresh kv (List.mem_cons_self kv t))
    have halset : ∀ q : PropOut, alSet r kv.1 q = r ++ [(kv.1, q)] := by
      intro q
      unfold alSet
      rw [if_neg (by rw [hhas]; exact Bool.false_ne_true)]
    have hstep : bpStep (r, a) kv = (r ++ [(kv.1, scalarPropOut kv.2)], a) := by
      unfold bpStep
      simp only [hdn]
      cases hv : kv.2 with
      | vstr s =>
        simp [halset, scalarPropOut]
        exact fun hc => hname (by rw [hc]; rfl)
      | varr es => simp [halset, scalarPropOut]
      | vnum n => simp [halset, scalarPropOut]
      | vbool b => simp [halset, scalarPropOut]
      | vobj tag => rw [hv] at hscal; cases hscal
      | vnull => rw [hv] at hscal; cases hscal
    rw [List.foldl_cons, hstep]
    rw [ih (r ++ [(kv.1, scalarPropOut kv.2)]) a
      (fun e he => hcond e (List.mem_cons_of_mem kv he))
      ?_ hnd2.2]
    · rw [List.map_cons, List.append_assoc]
      rfl
    · intro e he
      intro hc
      unfold alKeys at hc
      rw [List.map_append] at hc
      rcases List.mem_append.mp hc with hc1 | hc2
      · exact hfresh e (List.mem_cons_of_mem kv he) hc1
      · simp only [List.map_cons, List.map_nil, List.mem_singleton] at hc2
        apply hnd2.1
        rw [← hc2]
        exact List.mem_map.mpr ⟨e, he, rfl⟩

end Noty

namespace Noty

/-- C4: the key set of `buildProperties` is the input key set minus the
date-shorthand keys and the null/undefined-valued keys, plus one
`<name>` per distinct date-shorthand group; and on all-scalar inputs
with no `"Name"` key and no `date:` keys the output is exactly one
type-mapped entry per input entry, in order. -/
theorem C4_buildProperties_keys_and_mapping :
    (∀ (flat : List (List Char × JVal)) (k : List Char),
      (alKeys flat).Nodup →
      (k ∈ alKeys (buildProperties flat) ↔
        (k ∈ alKeys flat ∧ dateKeyMatch k = none ∧ alGet flat k ≠ some JVal.vnull) ∨
        ∃ kv, kv ∈ flat ∧ ∃ f, dateKeyMatch kv.1 = some (k, f))) ∧
    (∀ flat : List (List Char × JVal),
      (alKeys flat).Nodup →
      (∀ kv, kv ∈ flat → kv.1 ≠ "Name".toList ∧
        "date:".toList.isPrefixOf kv.1 = false ∧ isScalarVal kv.2 = true) →
      buildProperties flat = flat.map (fun kv => (kv.1, scalarPropOut kv.2))) := by
  constructor
  · intro flat k hnd
    rw [show buildProperties flat =
      (flat.foldl bpStep ([], [])).2.foldl bpEmit (flat.foldl bpStep ([], [])).1 from rfl]
    rw [bp_keys_invariant flat [] [] k]
    simp only [alKeys, List.map_nil, List.not_mem_nil, false_or]
    apply or_congr _ Iff.rfl
    constructor
    · rintro ⟨v, hm, hnv, hdn⟩
      refine ⟨List.mem_map.mpr ⟨(k, v), hm, rfl⟩, hdn, ?_⟩
      rw [alGet_of_mem_nodup flat hnd k v hm]
      intro hc
      injection hc with hc
      exact hnv hc
    · rintro ⟨hkm, hdn, hng⟩
      obtain ⟨e, he, hek⟩ := List.mem_map.mp hkm
      have hke : (k, e.2) = e := by
        rw [← hek]
      refine ⟨e.2, by rw [hke]; exact he, ?_, hdn⟩
      intro hc
      apply hng
      rw [alGet_of_mem_nodup flat hnd k e.2 (by rw [hke]; exact he), hc]
  · intro flat hnd hcond
    rw [show buildProperties flat =
      (flat.foldl bpStep ([], [])).2.foldl bpEmit (flat.foldl bpStep ([], [])).1 from rfl]
    rw [bp_loop_scalar flat [] [] hcond
      (fun kv _ => by simp [alKeys]) hnd]
    simp

/-- Witness for `C4_buildProperties_keys_and_mapping` at concrete
inputs. -/
theorem C4_witness :
    (("Due".toList ∈ alKeys (buildProperties c4SampleFlat) ↔
       (("Due".toList ∈ alKeys c4SampleFlat ∧
         dateKeyMatch ("Due".toList) = none ∧
         alGet c4SampleFlat ("Due".toList) ≠ some JVal.vnull) ∨
        ∃ kv, kv ∈ c4SampleFlat ∧
          ∃ f, dateKeyMatch kv.1 = some ("Due".toList, f)))) ∧
    buildProperties c4ScalarFlat =
      c4ScalarFlat.map (fun kv => (kv.1, scalarPropOut kv.2)) := by
  constructor
  · exact C4_buildProperties_keys_and_mapping.1 c4SampleFlat ("Due".toList) (by decide)
  · exact C4_buildProperties_keys_and_mapping.2 c4ScalarFlat (by decide)
      (fun kv hm => by
        rcases List.mem_cons.mp hm with rfl | hm2
        · exact ⟨by decide, by decide, by decide⟩
        · rcases List.mem_cons.mp hm2 with rfl | hm3
          · exact ⟨by decide, by decide, by decide⟩
          · cases hm3)

end Noty

namespace Noty

/-! ## Generic scanning helpers -/

theorem dropWhile_length_le {α : Type} (p : α → Bool) (l : List α) :
    (l.dropWhile p).length ≤ l.length := by
  induction l with
  | nil => simp
  | cons c cs ih =>
    rw [List.dropWhile_cons]
    split
    · exact le_trans ih (Nat.le_succ _)
    · exact le_refl _

theorem takeWhile_append_cons {α : Type} (p : α → Bool) (t : List α) (c : α)
    (cs : List α) (ht : ∀ a ∈ t, p a = true) (hc : p c = false) :
    (t ++ c :: cs).takeWhile p = t := by
  induction t with
  | nil =>
    rw [List.nil_append, List.takeWhile_cons, hc]
    simp
  | cons a t2 ih =>
    rw [List.cons_append, List.takeWhile_cons, ht a (List.mem_cons_self a t2)]
    simp only [if_true, reduceIte]
    rw [ih (fun x hx => ht x (List.mem_cons_of_mem a hx))]

theorem dropWhile_append_cons {α : Type} (p : α → Bool) (t : List α) (c : α)
    (cs : List α) (ht : ∀ a ∈ t, p a = true) (hc : p c = false) :
    (t ++ c :: cs).dropWhile p = c :: cs := by
  induction t with
  | nil =>
    rw [List.nil_append, List.dropWhile_cons, hc]
    simp
  | cons a t2 ih =>
    rw [List.cons_append, List.dropWhile_cons, ht a (List.mem_cons_self a t2)]
    simp only [if_true, reduceIte]
    exact ih (fun x hx => ht x (List.mem_cons_of_mem a hx))

theorem takeWhile_all {α : Type} (p : α → Bool) (t : List α)
    (ht : ∀ a ∈ t, p a = true) : t.takeWhile p = t := by
  induction t with
  | nil => rfl
  | cons a t2 ih =>
    rw [List.takeWhile_cons, ht a (List.mem_cons_self a t2)]
    simp only [if_true, reduceIte]
    rw [ih (fun x hx => ht x (List.mem_cons_of_mem a hx))]

/-! ## `markdownToBlocks` counting (C9) -/

/-- Every parser step emits at most one block per consumed line. -/
theorem parseLinesF_length (fuel : ℕ) :
    ∀ ls : List (List Char), (parseLinesF fuel ls).length ≤ ls.length := by
  induction fuel with
  | zero =>
    intro ls
    simp [parseLinesF]
  | succ f ih =>
    intro ls
    cases ls with
    | nil => simp [parseLinesF]
    | cons line rest =>
      have hrest2 : ((rest.dropWhile (fun l => !isFenceClose l)).drop 1).length ≤
          rest.length := by
        calc ((rest.dropWhile (fun l => !isFenceClose l)).drop 1).length
            ≤ (rest.dropWhile (fun l => !isFenceClose l)).length := by
              rw [List.length_drop]
              exact Nat.sub_le _ _
          _ ≤ rest.length := dropWhile_length_le _ _
      show (parseLinesF (f + 1) (line :: rest)).length ≤ rest.length + 1
      rw [parseLinesF]
      split
      · simp only [List.length_cons]
        exact Nat.succ_le_succ (le_trans (ih _) hrest2)
      · split
        · simp only [List.length_cons]
          exact Nat.succ_le_succ (ih rest)
        · split
          · simp only [List.length_cons]
            exact Nat.succ_le_succ (ih rest)
          · split
            · simp only [List.length_cons]
              exact Nat.succ_le_succ (ih rest)
            · split
              · simp only [List.length_cons]
                exact Nat.succ_le_succ (ih rest)
              · split
                · simp only [List.length_cons]
                  exact Nat.succ_le_succ (ih rest)
                · split
                  · simp only [List.length_cons]
                    exact Nat.succ_le_succ (ih rest)
                  · split
                    · simp only [List.length_cons]
                      exact Nat.succ_le_succ (ih rest)
                    · split
                      · exact le_trans (ih rest) (Nat.le_succ _)
                      · simp only [List.length_cons]
                        exact Nat.succ_le_succ (ih rest)

end Noty

namespace Noty

/-- A whitespace character heads none of the line patterns. -/
theorem ws_char_facts (c : Char) (h : isJsWS c = true) :
    c ≠ btChar ∧ c ≠ '#' ∧ c ≠ '-' ∧ c ≠ '*' ∧ c ≠ '>' ∧ isDigitCh c = false := by
  simp only [isJsWS, Bool.or_eq_true, decide_eq_true_eq] at h
  rcases h with ((((((((h | h) | h) | h) | h) | h) | h) | h) | h) | h <;> subst h <;>
    exact ⟨by decide, by decide, by decide, by decide, by decide, by decide⟩

/-- A whitespace-only line fails every line matcher and is skipped. -/
theorem ws_line_matchers (line : List Char) (hws : ∀ c ∈ line, isJsWS c = true) :
    fenceOpenMatch line = none ∧ isDividerLine line = false ∧
    h1Match line = none ∧ h2Match line = none ∧ h3Match line = none ∧
    bulletMatch line = none ∧ numberedMatch line = none ∧
    quoteMatch line = none ∧ (trimWS line).isEmpty = true := by
  have htrim : (trimWS line).isEmpty = true := by
    unfold trimWS
    rw [List.dropWhile_eq_nil_iff.mpr hws]
    rfl
  have hdiv : isDividerLine line = false := by
    unfold isDividerLine
    unfold trimWS
    rw [List.dropWhile_eq_nil_iff.mpr hws]
    rfl
  cases line with
  | nil => exact ⟨rfl, hdiv, rfl, rfl, rfl, rfl, rfl, rfl, htrim⟩
  | cons c cs =>
    obtain ⟨hbt, hhash, hdash, hstar, hgt, hdig⟩ :=
      ws_char_facts c (hws c (List.mem_cons_self c cs))
    refine ⟨?_, hdiv, ?_, ?_, ?_, ?_, ?_, ?_, htrim⟩
    · cases cs with
      | nil => rfl
      | cons c2 cs2 =>
        cases cs2 with
        | nil => rfl
        | cons c3 cs3 => simp [fenceOpenMatch, hbt]
    · cases cs with
      | nil => rfl
      | cons c2 cs2 => simp [h1Match, hhash]
    · cases cs with
      | nil => rfl
      | cons c2 cs2 =>
        cases cs2 with
        | nil => rfl
        | cons c3 cs3 => simp [h2Match, hhash]
    · cases cs with
      | nil => rfl
      | cons c2 cs2 =>
        cases cs2 with
        | nil => rfl
        | cons c3 cs3 =>
          cases cs3 with
          | nil => rfl
          | cons c4 cs4 => simp [h3Match, hhash]
    · cases cs with
      | nil => rfl
      | cons c2 cs2 => simp [bulletMatch, hdash, hstar]
    · simp [numberedMatch, List.takeWhile_cons, hdig]
    · cases cs with
      | nil => rfl
      | cons c2 cs2 => simp [quoteMatch, hgt]

/-- Whitespace-only lines produce no blocks at all. -/
theorem parseLinesF_ws (fuel : ℕ) :
    ∀ ls : List (List Char), (∀ l ∈ ls, ∀ c ∈ l, isJsWS c = true) →
      parseLinesF fuel ls = [] := by
  induction fuel with
  | zero =>
    intro ls _
    rfl
  | succ f ih =>
    intro ls hall
    cases ls with
    | nil => rfl
    | cons line rest =>
      obtain ⟨hfence, hdiv, hh1, hh2, hh3, hbul, hnum, hquote, htrim⟩ :=
        ws_line_matchers line (hall line (List.mem_cons_self line rest))
      rw [parseLinesF]
      simp only [hfence, hdiv, hh1, hh2, hh3, hbul, hnum, hquote, htrim,
        Bool.false_eq_true, if_false, if_true]
      exact ih rest (fun l hl => hall l (List.mem_cons_of_mem line hl))

/-- C9: `markdownToBlocks` emits at most one block per input line, and a
document whose every line is whitespace-only (including the empty
document) yields no blocks. -/
theorem C9_block_count :
    (∀ markdown : List Char,
      (markdownToBlocks markdown).length ≤ (splitNL markdown).length) ∧
    (∀ markdown : List Char,
      (∀ l ∈ splitNL markdown, ∀ c ∈ l, isJsWS c = true) →
      markdownToBlocks markdown = []) := by
  constructor
  · intro markdown
    exact parseLinesF_length (splitNL markdown).length (splitNL markdown)
  · intro markdown h
    exact parseLinesF_ws (splitNL markdown).length (splitNL markdown) h

/-- Witness for `C9_block_count`: both the empty document and a
whitespace-only document parse to no blocks. -/
theorem C9_witness :
    markdownToBlocks ("".toList) = [] ∧
    markdownToBlocks ("   \n\n  ".toList) = [] := by
  constructor
  · exact C9_block_count.2 ("".toList) (by decide)
  · exact C9_block_count.2 ("   \n\n  ".toList) (by decide)

end Noty

namespace Noty

/-- Any fuel of at least the number of lines gives the same parse. -/
theorem parseLinesF_fuel_irrel (f1 : ℕ) :
    ∀ (ls : List (List Char)) (f2 : ℕ), ls.length ≤ f1 → ls.length ≤ f2 →
      parseLinesF f1 ls = parseLinesF f2 ls := by
  induction f1 with
  | zero =>
    intro ls f2 h1 _
    rw [List.length_eq_zero.mp (Nat.le_zero.mp h1)]
    cases f2 <;> rfl
  | succ f ih =>
    intro ls f2 h1 h2
    cases ls with
    | nil => cases f2 <;> rfl
    | cons line rest =>
      obtain ⟨g, rfl⟩ : ∃ g, f2 = g + 1 := by
        cases f2 with
        | zero => simp at h2
        | succ g => exact ⟨g, rfl⟩
      simp only [List.length_cons] at h1 h2
      have hrb : ((rest.dropWhile (fun l => !isFenceClose l)).drop 1).length ≤
          rest.length := by
        calc ((rest.dropWhile (fun l => !isFenceClose l)).drop 1).length
            ≤ (rest.dropWhile (fun l => !isFenceClose l)).length := by
              rw [List.length_drop]
              exact Nat.sub_le _ _
          _ ≤ rest.length := dropWhile_length_le _ _
      have hrec : parseLinesF f rest = parseLinesF g rest :=
        ih rest g (by omega) (by omega)
      cases hf : fenceOpenMatch line with
      | some tag =>
        rw [parseLinesF, parseLinesF]
        simp only [hf]
        congr 1
        exact ih _ g (le_trans hrb (by omega)) (le_trans hrb (by omega))
      | none =>
        rw [parseLinesF, parseLinesF]
        simp only [hf]
        rw [hrec]

/-- An opening fence line is three backticks plus the word-character
language tag. -/
theorem fenceOpenMatch_openLine (lang : List Char) (hlang : lang.all isWordCh = true) :
    fenceOpenMatch (btChar :: btChar :: btChar :: lang) = some lang := by
  simp [fenceOpenMatch, hlang]

/-- One fence step with a closing line: one `code` block made of the
verbatim body, then scanning resumes after the close. -/
theorem parseLinesF_fence_closed (lang : List Char) (body rest : List (List Char))
    (fuel : ℕ) (hlang : lang.all isWordCh = true)
    (hbody : ∀ l ∈ body, isFenceClose l = false) :
    parseLinesF (fuel + 1)
        ((btChar :: btChar :: btChar :: lang) :: (body ++ ("```".toList) :: rest)) =
      mkCodeBlock lang body :: parseLinesF fuel rest := by
  have hclose : isFenceClose ("```".toList) = true := by decide
  have hbody2 : ∀ l ∈ body, (fun l => !isFenceClose l) l = true := by
    intro l hl
    simp [hbody l hl]
  have hcl2 : (fun l => !isFenceClose l) ("```".toList) = false := by
    decide
  rw [parseLinesF]
  simp only [fenceOpenMatch_openLine lang hlang]
  rw [takeWhile_append_cons _ body _ rest hbody2 hcl2,
    dropWhile_append_cons _ body _ rest hbody2 hcl2]
  rfl

/-- One unterminated fence step: the rest of the document becomes the
body of a single `code` block. -/
theorem parseLinesF_fence_open (lang : List Char) (body : List (List Char))
    (fuel : ℕ) (hlang : lang.all isWordCh = true)
    (hbody : ∀ l ∈ body, isFenceClose l = false) :
    parseLinesF (fuel + 1) ((btChar :: btChar :: btChar :: lang) :: body) =
      [mkCodeBlock lang body] := by
  have hbody2 : ∀ l ∈ body, (fun l => !isFenceClose l) l = true := by
    intro l hl
    simp [hbody l hl]
  rw [parseLinesF]
  simp only [fenceOpenMatch_openLine lang hlang]
  rw [takeWhile_all _ body hbody2, List.dropWhile_eq_nil_iff.mpr hbody2]
  cases fuel <;> rfl

/-- C7: an opening fence line switches the parser into the fence state,
which accumulates all following lines verbatim into one `code` block —
its language the captured tag, or `plain text` when the tag is empty —
until a line of exactly three backticks (after which scanning resumes)
or the end of the input (an unterminated fence consumes the rest). -/
theorem C7_fence_state_machine :
    (∀ markdown : List Char, markdownToBlocks markdown = parseLines (splitNL markdown)) ∧
    (∀ (lang : List Char) (body rest : List (List Char)),
      lang.all isWordCh = true →
      (∀ l ∈ body, isFenceClose l = false) →
      parseLines ((btChar :: btChar :: btChar :: lang) ::
          (body ++ ("```".toList) :: rest)) =
        mkCodeBlock lang body :: parseLines rest) ∧
    (∀ (lang : List Char) (body : List (List Char)),
      lang.all isWordCh = true →
      (∀ l ∈ body, isFenceClose l = false) →
      parseLines ((btChar :: btChar :: btChar :: lang) :: body) =
        [mkCodeBlock lang body]) ∧
    (codeLang [] = "plain text".toList ∧ ∀ lang : List Char, lang ≠ [] → codeLang lang = lang) := by
  refine ⟨fun _ => rfl, ?_, ?_, by decide, ?_⟩
  · intro lang body rest hlang hbody
    unfold parseLines
    rw [show ((btChar :: btChar :: btChar :: lang) ::
        (body ++ ("```".toList) :: rest)).length =
      (body ++ ("```".toList) :: rest).length + 1 from rfl]
    rw [parseLinesF_fence_closed lang body rest _ hlang hbody]
    congr 1
    apply parseLinesF_fuel_irrel
    · simp
      omega
    · exact le_refl _
  · intro lang body hlang hbody
    unfold parseLines
    rw [show ((btChar :: btChar :: btChar :: lang) :: body).length =
      body.length + 1 from rfl]
    exact parseLinesF_fence_open lang body _ hlang hbody
  · intro lang hl
    unfold codeLang
    rw [if_neg (by simpa [List.isEmpty_iff] using hl)]

/-- Witness for `C7_fence_state_machine` at a concrete fenced block. -/
theorem C7_witness :
    parseLines [("```ts".toList), ("const x = 1;".toList), ("```".toList),
        ("# T".toList)] =
      mkCodeBlock ("ts".toList) [("const x = 1;".toList)] ::
        parseLines [("# T".toList)] := by
  have h := C7_fence_state_machine.2.1 ("ts".toList) [("const x = 1;".toList)]
    [("# T".toList)] (by decide) (by decide)
  exact h

end Noty

namespace Noty

/-- C8: a `table_row` renders as one pipe-delimited cell line; the first
row of each consecutive table-row run is followed by a `---` separator
with one cell per column of that row; any non-table-row block resets the
first-row state; two consecutive two-cell rows render as exactly three
lines. -/
theorem C8_table_row_serialization :
    (∀ (b : SBlock) (cells : List (List RichTextObject)) (indent : ℕ),
      b.data = .tableRow cells →
      blockToMarkdown b indent =
        indentPrefix indent ++ "| ".toList ++
          List.intercalate (" | ".toList) (cells.map richTextToMarkdown) ++
          " |".toList) ∧
    (∀ indent (cells : List (List RichTextObject)),
      tableSep indent cells =
        indentPrefix indent ++ "| ".toList ++
          List.intercalate (" | ".toList)
            (List.replicate cells.length ("---".toList)) ++ " |".toList) ∧
    (∀ (b : SBlock) (cells : List (List RichTextObject)) (rest : List SBlock) indent,
      b.data = .tableRow cells →
      btmLines indent (b :: rest) true =
        blockToMarkdown b indent :: tableSep indent cells ::
          btmLines indent rest false) ∧
    (∀ (b : SBlock) (cells : List (List RichTextObject)) (rest : List SBlock) indent,
      b.data = .tableRow cells →
      btmLines indent (b :: rest) false =
        blockToMarkdown b indent :: btmLines indent rest false) ∧
    (∀ (b : SBlock) (rest : List SBlock) (st : Bool) indent,
      (∀ cells, b.data ≠ .tableRow cells) →
      btmLines indent (b :: rest) st =
        (if (blockToMarkdown b indent).isEmpty then []
         else [blockToMarkdown b indent]) ++ btmLines indent rest true) ∧
    (∀ (id1 id2 : List Char) (hc1 hc2 : Bool)
      (c1 c2 d1 d2 : List RichTextObject),
      blocksToMarkdown
          [⟨id1, hc1, .tableRow [c1, c2]⟩, ⟨id2, hc2, .tableRow [d1, d2]⟩] 0 =
        blockToMarkdown ⟨id1, hc1, .tableRow [c1, c2]⟩ 0 ++
          '\n' :: tableSep 0 [c1, c2] ++
          '\n' :: blockToMarkdown ⟨id2, hc2, .tableRow [d1, d2]⟩ 0) := by
  refine ⟨?_, ?_, ?_, ?_, ?_, ?_⟩
  · intro b cells indent hb
    rcases b with ⟨i, hch, d⟩
    simp only at hb
    subst hb
    rfl
  · intro indent cells
    unfold tableSep
    congr 1
    · congr 1
      congr 1
      induction cells with
      | nil => rfl
      | cons c t ih => simp [List.replicate, ih]
  · intro b cells rest indent hb
    rcases b with ⟨i, hch, d⟩
    simp only at hb
    subst hb
    simp [btmLines]
  · intro b cells rest indent hb
    rcases b with ⟨i, hch, d⟩
    simp only at hb
    subst hb
    simp [btmLines]
  · intro b rest st indent hb
    rcases b with ⟨i, hch, d⟩
    cases d with
    | tableRow cells => exact absurd rfl (hb cells)
    | _ =>
      rw [btmLines]
      split_ifs with h <;> simp [h]
  · intro id1 id2 hc1 hc2 c1 c2 d1 d2
    unfold blocksToMarkdown
    rw [btmLines, btmLines, btmLines]
    unfold joinNL
    simp [List.intercalate, List.intersperse]

/-- Witness for `C8_table_row_serialization` at concrete rows. -/
theorem C8_witness :
    btmLines 0
        [⟨"r1".toList, false, .tableRow [[mkPlain ("a".toList)], [mkPlain ("b".toList)]]⟩]
        true =
      blockToMarkdown
          ⟨"r1".toList, false, .tableRow [[mkPlain ("a".toList)], [mkPlain ("b".toList)]]⟩ 0 ::
        tableSep 0 [[mkPlain ("a".toList)], [mkPlain ("b".toList)]] :: btmLines 0 [] false := by
  exact C8_table_row_serialization.2.2.1 _ _ [] 0 rfl

end Noty

namespace Noty

/-! ## Identifier-normalizer lemmas (C5) -/

theorem splitOnChar_ne_nil (sep : Char) (l : List Char) : splitOnChar sep l ≠ [] := by
  cases l with
  | nil => simp [splitOnChar]
  | cons c cs =>
    rw [splitOnChar]
    split_ifs
    · simp
    · cases splitOnChar sep cs <;> simp

theorem splitOnChar_sepFree (sep : Char) (l : List Char)
    (h : ∀ c ∈ l, c ≠ sep) : splitOnChar sep l = [l] := by
  induction l with
  | nil => rfl
  | cons c cs ih =>
    rw [splitOnChar]
    rw [if_neg (h c (List.mem_cons_self c cs))]
    rw [ih (fun x hx => h x (List.mem_cons_of_mem c hx))]

theorem splitOnChar_append (sep : Char) (a b : List Char)
    (h : ∀ c ∈ a, c ≠ sep) :
    splitOnChar sep (a ++ sep :: b) = a :: splitOnChar sep b := by
  induction a with
  | nil =>
    rw [List.nil_append, splitOnChar, if_pos rfl]
  | cons c cs ih =>
    rw [List.cons_append, splitOnChar]
    rw [if_neg (h c (List.mem_cons_self c cs))]
    rw [ih (fun x hx => h x (List.mem_cons_of_mem c hx))]

theorem splitOnChar_mem (sep : Char) (l : List Char) :
    ∀ c ∈ l, c = sep ∨ ∃ p ∈ splitOnChar sep l, c ∈ p := by
  induction l with
  | nil => intro c hc; cases hc
  | cons a t ih =>
    intro c hc
    by_cases ha : a = sep
    · rcases List.mem_cons.mp hc with rfl | hct
      · exact Or.inl ha
      · rcases ih c hct with h | ⟨p, hp, hcp⟩
        · exact Or.inl h
        · refine Or.inr ⟨p, ?_, hcp⟩
          rw [splitOnChar, if_pos ha]
          exact List.mem_cons_of_mem _ hp
    · rcases hs : splitOnChar sep t with _ | ⟨hd, tl⟩
      · exact absurd hs (splitOnChar_ne_nil sep t)
      · have hres : splitOnChar sep (a :: t) = (a :: hd) :: tl := by
          rw [splitOnChar, if_neg ha, hs]
        rcases List.mem_cons.mp hc with rfl | hct
        · exact Or.inr ⟨c :: hd, by rw [hres]; exact List.mem_cons_self _ _,
            List.mem_cons_self _ _⟩
        · rcases ih c hct with h | ⟨p, hp, hcp⟩
          · exact Or.inl h
          · rw [hs] at hp
            rcases List.mem_cons.mp hp with rfl | hptl
            · exact Or.inr ⟨a :: p, by rw [hres]; exact List.mem_cons_self _ _,
                List.mem_cons_of_mem a hcp⟩
            · exact Or.inr ⟨p, by rw [hres]; exact List.mem_cons_of_mem _ hptl, hcp⟩

theorem splitOnChar_map (sep : Char) (f : Char → Char) (l : List Char)
    (h : ∀ c ∈ l, (f c = sep ↔ c = sep)) :
    splitOnChar sep (l.map f) = (splitOnChar sep l).map (List.map f) := by
  induction l with
  | nil => rfl
  | cons c cs ih =>
    have hf := h c (List.mem_cons_self c cs)
    have ih2 := ih (fun x hx => h x (List.mem_cons_of_mem c hx))
    rw [List.map_cons, splitOnChar, splitOnChar]
    by_cases hc : c = sep
    · rw [if_pos (hf.mpr hc), if_pos hc, ih2]
      rfl
    · rw [if_neg (fun hx => hc (hf.mp hx)), if_neg hc, ih2]
      rcases hs : splitOnChar sep cs with _ | ⟨hd, tl⟩
      · exact absurd hs (splitOnChar_ne_nil sep cs)
      · rfl

theorem map_fix_of_all {α : Type} (f : α → α) (l : List α)
    (h : ∀ c ∈ l, f c = c) : l.map f = l := by
  induction l with
  | nil => rfl
  | cons c cs ih =>
    rw [List.map_cons, h c (List.mem_cons_self c cs),
      ih (fun x hx => h x (List.mem_cons_of_mem c hx))]

theorem hexDigit_facts (c : Char) (h : isHexDigit c = true) :
    isJsWS c = false ∧ c ≠ '-' ∧ isLowerHex (jsToLowerChar c) = true ∧
    jsToLowerChar c ≠ '-' ∧ jsToLowerChar (jsToLowerChar c) = jsToLowerChar c := by
  have hm : c ∈ hexDigits := by
    simpa [isHexDigit, List.contains_iff_exists_mem_beq, beq_iff_eq, eq_comm] using h
  fin_cases hm <;> refine ⟨by decide, by decide, by decide, by decide, by decide⟩

theorem lowerHex_facts (c : Char) (h : isLowerHex c = true) :
    isHexDigit c = true ∧ jsToLowerChar c = c ∧ isJsWS c = false ∧ c ≠ '-' := by
  have hm : c ∈ lowerHexDigits := by
    simpa [isLowerHex, List.contains_iff_exists_mem_beq, beq_iff_eq, eq_comm] using h
  fin_cases hm <;> refine ⟨by decide, by decide, by decide, by decide⟩

theorem trimWS_id (l : List Char) (h : ∀ c ∈ l, isJsWS c = false) : trimWS l = l := by
  have hdrop : ∀ m : List Char, (∀ c ∈ m, isJsWS c = false) → m.dropWhile isJsWS = m := by
    intro m hm
    cases m with
    | nil => rfl
    | cons c cs =>
      rw [List.dropWhile_cons, hm c (List.mem_cons_self c cs)]
      simp
  unfold trimWS
  rw [hdrop l h, hdrop l.reverse (fun c hc => h c (List.mem_reverse.mp hc)),
    List.reverse_reverse]

end Noty

namespace Noty

theorem isHex32_facts (l : List Char) (h : isHex32 l = true) :
    l.length = 32 ∧ ∀ c ∈ l, isHexDigit c = true := by
  unfold isHex32 at h
  rw [Bool.and_eq_true] at h
  exact ⟨by simpa using h.1, by simpa [List.all_eq_true] using h.2⟩

theorem uuidFormat_eq (g : List Char) :
    uuidFormat g =
      g.take 8 ++ '-' :: ((g.drop 8).take 4 ++ '-' :: ((g.drop 12).take 4 ++
        '-' :: ((g.drop 16).take 4 ++ '-' :: g.drop 20))) := by
  simp [uuidFormat]

theorem isUuidRe_parts (l : List Char) (h : isUuidRe l = true) :
    ∃ a b c d e, splitOnChar '-' l = [a, b, c, d, e] ∧
      a.length = 8 ∧ b.length = 4 ∧ c.length = 4 ∧ d.length = 4 ∧ e.length = 12 ∧
      (∀ x ∈ a, isHexDigit x = true) ∧ (∀ x ∈ b, isHexDigit x = true) ∧
      (∀ x ∈ c, isHexDigit x = true) ∧ (∀ x ∈ d, isHexDigit x = true) ∧
      (∀ x ∈ e, isHexDigit x = true) := by
  unfold isUuidRe at h
  split at h
  case _ a b c d e heq =>
    simp only [Bool.and_eq_true, beq_iff_eq, List.all_eq_true, and_assoc] at h
    obtain ⟨hla, hlb, hlc, hld, hle, hha, hhb, hhc, hhd, hhe⟩ := h
    exact ⟨a, b, c, d, e, heq, hla, hlb, hlc, hld, hle, hha, hhb, hhc, hhd, hhe⟩
  case _ => simp at h

theorem uuid_chars_hex_or_dash (l : List Char) (h : isUuidRe l = true) :
    ∀ x ∈ l, isHexDigit x = true ∨ x = '-' := by
  obtain ⟨a, b, c, d, e, hs, _, _, _, _, _, hha, hhb, hhc, hhd, hhe⟩ :=
    isUuidRe_parts l h
  intro x hx
  rcases splitOnChar_mem '-' l x hx with hd | ⟨p, hp, hxp⟩
  · exact Or.inr hd
  · rw [hs] at hp
    simp only [List.mem_cons, List.not_mem_nil, or_false] at hp
    rcases hp with rfl | rfl | rfl | rfl | rfl
    · exact Or.inl (hha x hxp)
    · exact Or.inl (hhb x hxp)
    · exact Or.inl (hhc x hxp)
    · exact Or.inl (hhd x hxp)
    · exact Or.inl (hhe x hxp)

theorem uuidFormat_split (g : List Char)
    (hnd : ∀ c ∈ g, c ≠ '-') :
    splitOnChar '-' (uuidFormat g) =
      [g.take 8, (g.drop 8).take 4, (g.drop 12).take 4, (g.drop 16).take 4,
        g.drop 20] := by
  have hsub : ∀ (m : List Char), m ⊆ g → ∀ c ∈ m, c ≠ '-' :=
    fun m hm c hc => hnd c (hm hc)
  rw [uuidFormat_eq,
    splitOnChar_append '-' _ _ (hsub _ (List.take_subset 8 g)),
    splitOnChar_append '-' _ _
      (hsub _ (subset_trans (List.take_subset 4 _) (List.drop_subset 8 g))),
    splitOnChar_append '-' _ _
      (hsub _ (subset_trans (List.take_subset 4 _) (List.drop_subset 12 g))),
    splitOnChar_append '-' _ _
      (hsub _ (subset_trans (List.take_subset 4 _) (List.drop_subset 16 g))),
    splitOnChar_sepFree '-' _ (hsub _ (List.drop_subset 20 g))]

theorem uuidFormat_lengths (g : List Char) (hlen : g.length = 32) :
    (g.take 8).length = 8 ∧ ((g.drop 8).take 4).length = 4 ∧
    ((g.drop 12).take 4).length = 4 ∧ ((g.drop 16).take 4).length = 4 ∧
    (g.drop 20).length = 12 := by
  simp [List.length_take, List.length_drop, hlen]

theorem uuidFormat_canonical (g : List Char) (hlen : g.length = 32)
    (hlow : ∀ c ∈ g, isLowerHex c = true) :
    isCanonicalId (uuidFormat g) = true := by
  obtain ⟨h1, h2, h3, h4, h5⟩ := uuidFormat_lengths g hlen
  have hnd : ∀ c ∈ g, c ≠ '-' := fun c hc => (lowerHex_facts c (hlow c hc)).2.2.2
  unfold isCanonicalId
  rw [uuidFormat_split g hnd]
  simp only [Bool.and_eq_true, beq_iff_eq, List.all_eq_true, and_assoc]
  refine ⟨h1, h2, h3, h4, h5, ?_, ?_, ?_, ?_, ?_⟩
  · exact fun x hx => hlow x (List.take_subset 8 g hx)
  · exact fun x hx => hlow x (List.drop_subset 8 g (List.take_subset 4 _ hx))
  · exact fun x hx => hlow x (List.drop_subset 12 g (List.take_subset 4 _ hx))
  · exact fun x hx => hlow x (List.drop_subset 16 g (List.take_subset 4 _ hx))
  · exact fun x hx => hlow x (List.drop_subset 20 g hx)

theorem uuidFormat_isUuidRe (g : List Char) (hlen : g.length = 32)
    (hlow : ∀ c ∈ g, isLowerHex c = true) :
    isUuidRe (uuidFormat g) = true := by
  obtain ⟨h1, h2, h3, h4, h5⟩ := uuidFormat_lengths g hlen
  have hnd : ∀ c ∈ g, c ≠ '-' := fun c hc => (lowerHex_facts c (hlow c hc)).2.2.2
  have hhex : ∀ c ∈ g, isHexDigit c = true :=
    fun c hc => (lowerHex_facts c (hlow c hc)).1
  unfold isUuidRe
  rw [uuidFormat_split g hnd]
  simp only [Bool.and_eq_true, beq_iff_eq, List.all_eq_true, and_assoc]
  refine ⟨h1, h2, h3, h4, h5, ?_, ?_, ?_, ?_, ?_⟩
  · exact fun x hx => hhex x (List.take_subset 8 g hx)
  · exact fun x hx => hhex x (List.drop_subset 8 g (List.take_subset 4 _ hx))
  · exact fun x hx => hhex x (List.drop_subset 12 g (List.take_subset 4 _ hx))
  · exact fun x hx => hhex x (List.drop_subset 16 g (List.take_subset 4 _ hx))
  · exact fun x hx => hhex x (List.drop_subset 20 g hx)

theorem uuidFormat_mem (g : List Char) :
    ∀ c ∈ uuidFormat g, c ∈ g ∨ c = '-' := by
  intro c hc
  rw [uuidFormat_eq] at hc
  simp only [List.mem_append, List.mem_cons] at hc
  rcases hc with hc | hc | hc | hc | hc | hc | hc | hc | hc
  · exact Or.inl (List.take_subset 8 g hc)
  · exact Or.inr hc
  · exact Or.inl (List.drop_subset 8 g (List.take_subset 4 _ hc))
  · exact Or.inr hc
  · exact Or.inl (List.drop_subset 12 g (List.take_subset 4 _ hc))
  · exact Or.inr hc
  · exact Or.inl (List.drop_subset 16 g (List.take_subset 4 _ hc))
  · exact Or.inr hc
  · exact Or.inl (List.drop_subset 20 g hc)

theorem extractNotionId_hex32 (l : List Char) (h : isHex32 l = true) :
    extractNotionId l = uuidFormat (toLowerStr l) ∧
      (toLowerStr l).length = 32 ∧ ∀ c ∈ toLowerStr l, isLowerHex c = true := by
  obtain ⟨hlen, hall⟩ := isHex32_facts l h
  have hnws : ∀ c ∈ l, isJsWS c = false := fun c hc => (hexDigit_facts c (hall c hc)).1
  have hnd : ∀ c ∈ l, c ≠ '-' := fun c hc => (hexDigit_facts c (hall c hc)).2.1
  have htrim : trimWS l = l := trimWS_id l hnws
  have huuid : isUuidRe l = false := by
    unfold isUuidRe
    rw [splitOnChar_sepFree '-' l hnd]
  have hfilter : l.filter (fun c => c != '-') = l :=
    List.filter_eq_self.mpr (fun a ha => by simpa using hnd a ha)
  have hllen : (toLowerStr l).length = 32 := by simp [toLowerStr, hlen]
  have hlow : ∀ c ∈ toLowerStr l, isLowerHex c = true := by
    intro c hc
    obtain ⟨y, hy, rfl⟩ := List.mem_map.mp hc
    exact (hexDigit_facts y (hall y hy)).2.2.1
  refine ⟨?_, hllen, hlow⟩
  simp only [extractNotionId]
  rw [htrim, if_neg (by simp [huuid]), if_pos h]
  simp only [toUuid]
  rw [hfilter, if_neg (by simp [hllen])]

theorem extractNotionId_uuidFormat_fix (g : List Char) (hlen : g.length = 32)
    (hlow : ∀ c ∈ g, isLowerHex c = true) :
    extractNotionId (uuidFormat g) = uuidFormat g := by
  have hre := uuidFormat_isUuidRe g hlen hlow
  have hmem := uuidFormat_mem g
  have htrim : trimWS (uuidFormat g) = uuidFormat g := by
    refine trimWS_id _ (fun c hc => ?_)
    rcases hmem c hc with hg | rfl
    · exact (lowerHex_facts c (hlow c hg)).2.2.1
    · decide
  have hfix : toLowerStr (uuidFormat g) = uuidFormat g := by
    refine map_fix_of_all _ _ (fun c hc => ?_)
    rcases hmem c hc with hg | rfl
    · exact (lowerHex_facts c (hlow c hg)).2.1
    · decide
  simp only [extractNotionId]
  rw [htrim, if_pos hre, hfix]

theorem extractNotionId_uuidRe (l : List Char) (h : isUuidRe l = true) :
    extractNotionId l = toLowerStr l := by
  have hcd := uuid_chars_hex_or_dash l h
  have htrim : trimWS l = l := by
    refine trimWS_id l (fun c hc => ?_)
    rcases hcd c hc with hx | rfl
    · exact (hexDigit_facts c hx).1
    · decide
  simp only [extractNotionId]
  rw [htrim, if_pos h]

theorem toLower_uuid_split (l a b c d e : List Char)
    (hs : splitOnChar '-' l = [a, b, c, d, e])
    (hall : ∀ x ∈ l, isHexDigit x = true ∨ x = '-') :
    splitOnChar '-' (toLowerStr l) =
      [toLowerStr a, toLowerStr b, toLowerStr c, toLowerStr d, toLowerStr e] := by
  have hcond : ∀ x ∈ l, (jsToLowerChar x = '-' ↔ x = '-') := by
    intro x hx
    rcases hall x hx with hx2 | rfl
    · exact ⟨fun h2 => absurd h2 (hexDigit_facts x hx2).2.2.2.1,
        fun h2 => absurd h2 (hexDigit_facts x hx2).2.1⟩
    · exact ⟨fun _ => rfl, fun _ => by decide⟩
  show splitOnChar '-' (l.map jsToLowerChar) = _
  rw [splitOnChar_map '-' jsToLowerChar l hcond, hs]
  rfl

theorem toLower_uuid_facts (l : List Char) (h : isUuidRe l = true) :
    isUuidRe (toLowerStr l) = true ∧ isCanonicalId (toLowerStr l) = true ∧
    toLowerStr (toLowerStr l) = toLowerStr l := by
  obtain ⟨a, b, c, d, e, hs, hla, hlb, hlc, hld, hle, hha, hhb, hhc, hhd, hhe⟩ :=
    isUuidRe_parts l h
  have hcd := uuid_chars_hex_or_dash l h
  have hsplit := toLower_uuid_split l a b c d e hs hcd
  have hlow : ∀ (m : List Char), (∀ x ∈ m, isHexDigit x = true) →
      ∀ x ∈ toLowerStr m, isLowerHex x = true := by
    intro m hm x hx
    obtain ⟨y, hy, rfl⟩ := List.mem_map.mp hx
    exact (hexDigit_facts y (hm y hy)).2.2.1
  have hlens : (toLowerStr a).length = 8 ∧ (toLowerStr b).length = 4 ∧
      (toLowerStr c).length = 4 ∧ (toLowerStr d).length = 4 ∧
      (toLowerStr e).length = 12 := by
    simp [toLowerStr, hla, hlb, hlc, hld, hle]
  refine ⟨?_, ?_, ?_⟩
  · unfold isUuidRe
    rw [hsplit]
    simp only [Bool.and_eq_true, beq_iff_eq, List.all_eq_true, and_assoc]
    exact ⟨hlens.1, hlens.2.1, hlens.2.2.1, hlens.2.2.2.1, hlens.2.2.2.2,
      fun x hx => (lowerHex_facts x (hlow a hha x hx)).1,
      fun x hx => (lowerHex_facts x (hlow b hhb x hx)).1,
      fun x hx => (lowerHex_facts x (hlow c hhc x hx)).1,
      fun x hx => (lowerHex_facts x (hlow d hhd x hx)).1,
      fun x hx => (lowerHex_facts x (hlow e hhe x hx)).1⟩
  · unfold isCanonicalId
    rw [hsplit]
    simp only [Bool.and_eq_true, beq_iff_eq, List.all_eq_true, and_assoc]
    exact ⟨hlens.1, hlens.2.1, hlens.2.2.1, hlens.2.2.2.1, hlens.2.2.2.2,
      hlow a hha, hlow b hhb, hlow c hhc, hlow d hhd, hlow e hhe⟩
  · refine map_fix_of_all _ _ (fun x hx => ?_)
    obtain ⟨y, hy, rfl⟩ := List.mem_map.mp hx
    rcases hcd y hy with hy2 | rfl
    · exact (hexDigit_facts y hy2).2.2.2.2
    · decide

/-- C5: for inputs that are exactly 32 hex characters, or already in dashed
8-4-4-4-12 hex form of any letter case, `extractNotionId` is idempotent and
its result is a lowercase dashed 8-4-4-4-12 UUID. (The original claim also
covered 32 hex characters with dashes inserted at arbitrary positions; the
counterexample shows those come back verbatim and non-canonical.) -/
theorem C5_normalize_idempotent_canonical (l : List Char)
    (h : isHex32 l = true ∨ isUuidRe l = true) :
    extractNotionId (extractNotionId l) = extractNotionId l ∧
    isCanonicalId (extractNotionId l) = true := by
  rcases h with h | h
  · obtain ⟨he, hlen, hlow⟩ := extractNotionId_hex32 l h
    rw [he]
    exact ⟨extractNotionId_uuidFormat_fix _ hlen hlow,
      uuidFormat_canonical _ hlen hlow⟩
  · rw [extractNotionId_uuidRe l h]
    obtain ⟨hre, hcan, hidem⟩ := toLower_uuid_facts l h
    refine ⟨?_, hcan⟩
    rw [extractNotionId_uuidRe _ hre, hidem]

/-- C5 counterexample: `0-123456789abcdef0123456789abcdef` is 32 hex
characters with one inserted dash; `extractNotionId` returns it verbatim
(it is neither `UUID_RE` nor `HEX32_RE`, has no 32-char contiguous hex run,
and is not a URL), which is not the lowercase dashed pattern. -/
theorem C5_counterexample :
    extractNotionId ("0-123456789abcdef0123456789abcdef".toList) =
      "0-123456789abcdef0123456789abcdef".toList ∧
    isCanonicalId
      (extractNotionId ("0-123456789abcdef0123456789abcdef".toList)) = false := by
  constructor <;> decide

/-- C5 witness: a concrete 32-hex input with mixed case is normalized
idempotently to a canonical lowercase dashed UUID. -/
theorem C5_witness :
    (isHex32 ("0123456789ABCDEFabcdef0123456789".toList) = true ∨
      isUuidRe ("0123456789ABCDEFabcdef0123456789".toList) = true) ∧
    (extractNotionId (extractNotionId ("0123456789ABCDEFabcdef0123456789".toList)) =
        extractNotionId ("0123456789ABCDEFabcdef0123456789".toList) ∧
      isCanonicalId (extractNotionId ("0123456789ABCDEFabcdef0123456789".toList)) = true) :=
  ⟨Or.inl (by decide),
    C5_normalize_idempotent_canonical _ (Or.inl (by decide))⟩

/-! ## C6: tokenizer precedence and plain-text fallback -/

theorem parseAuxF_noMatch (l : List Char) :
    ∀ acc, hasMatch l = false → parseAuxF l.length l acc = flushPlain (acc ++ l) := by
  induction l with
  | nil => intro acc _; rfl
  | cons c cs ih =>
    intro acc hnm
    rw [hasMatch, Bool.or_eq_false_iff] at hnm
    have hnone : matchAt (c :: cs) = none :=
      Option.not_isSome_iff_eq_none.mp (by rw [hnm.1]; exact Bool.false_ne_true)
    rw [List.length_cons, parseAuxF, hnone, ih (acc ++ [c]) hnm.2,
      List.append_assoc, List.singleton_append]

/-- C6: the inline tokenizer is a single left-to-right pass: at each position
a match by an earlier alternative shadows all later ones, in the order
link > code > bold+italic > bold > italic > strikethrough; on a match the
pending text is flushed as one plain span and scanning resumes after the
match; on no match the head character joins the plain accumulator; a line
with no match anywhere becomes exactly one plain span holding the line. -/
theorem C6_tokenizer_precedence :
    (∀ l r, matchLink l = some r → matchAt l = some r) ∧
    (∀ l r, matchLink l = none → matchCode l = some r → matchAt l = some r) ∧
    (∀ l r, matchLink l = none → matchCode l = none →
      matchBoldItalic l = some r → matchAt l = some r) ∧
    (∀ l r, matchLink l = none → matchCode l = none → matchBoldItalic l = none →
      matchBold l = some r → matchAt l = some r) ∧
    (∀ l r, matchLink l = none → matchCode l = none → matchBoldItalic l = none →
      matchBold l = none → matchItalic l = some r → matchAt l = some r) ∧
    (∀ l, matchLink l = none → matchCode l = none → matchBoldItalic l = none →
      matchBold l = none → matchItalic l = none → matchAt l = matchStrike l) ∧
    (∀ fuel c cs acc tok rest, matchAt (c :: cs) = some (tok, rest) →
      parseAuxF (fuel + 1) (c :: cs) acc =
        flushPlain acc ++ tok :: parseAuxF fuel rest []) ∧
    (∀ fuel c cs acc, matchAt (c :: cs) = none →
      parseAuxF (fuel + 1) (c :: cs) acc = parseAuxF fuel cs (acc ++ [c])) ∧
    (∀ l, l ≠ [] → hasMatch l = false →
      parseInlineFormatting l = [mkPlain l]) := by
  refine ⟨?_, ?_, ?_, ?_, ?_, ?_, ?_, ?_, ?_⟩
  · intro l r h; simp only [matchAt, h]
  · intro l r h1 h2; simp only [matchAt, h1, h2]
  · intro l r h1 h2 h3; simp only [matchAt, h1, h2, h3]
  · intro l r h1 h2 h3 h4; simp only [matchAt, h1, h2, h3, h4]
  · intro l r h1 h2 h3 h4 h5; simp only [matchAt, h1, h2, h3, h4, h5]
  · intro l h1 h2 h3 h4 h5; simp only [matchAt, h1, h2, h3, h4, h5]
  · intro fuel c cs acc tok rest h; rw [parseAuxF, h]
  · intro fuel c cs acc h; rw [parseAuxF, h]
  · intro l hne hnm
    rw [parseInlineFormatting, parseAuxF_noMatch l [] hnm, List.nil_append,
      flushPlain, if_neg (by simpa using hne)]

/-- C6 witness: a delimiter-free line parses to a single plain span, and at
a position where both bold and italic could start, bold+italic wins. -/
theorem C6_witness :
    parseInlineFormatting ("hello world!".toList) =
      [mkPlain ("hello world!".toList)] :=
  C6_tokenizer_precedence.2.2.2.2.2.2.2.2 ("hello world!".toList)
    (by decide) (by decide)

/-! ## C1: round trip of clean span sequences -/

theorem isEmpty_false_of_ne {α : Type} (l : List α) (h : l ≠ []) :
    l.isEmpty = false := by
  cases l with
  | nil => exact absurd rfl h
  | cons a l => rfl

theorem flushPlain_nil : flushPlain [] = [] := rfl

theorem flushPlain_ne (t : List Char) (h : t ≠ []) :
    flushPlain t = [mkPlain t] := by
  rw [flushPlain, isEmpty_false_of_ne t h]
  rfl

theorem cleanText_facts (t : List Char) (h : cleanText t = true) :
    t ≠ [] ∧ ∀ c ∈ t, c ≠ '*' ∧ c ≠ '~' ∧ c ≠ btChar ∧ c ≠ '[' ∧ c ≠ ']' ∧
      c ≠ '(' ∧ c ≠ ')' ∧ isInlineDelim c = false := by
  rw [cleanText, Bool.and_eq_true] at h
  obtain ⟨h1, h2⟩ := h
  refine ⟨fun hn => by simp [hn] at h1, ?_⟩
  intro c hc
  have h3 : isInlineDelim c = false := by
    have := List.all_eq_true.mp h2 c hc
    simpa using this
  have h4 := h3
  rw [isInlineDelim] at h4
  simp only [Bool.or_eq_false_iff, decide_eq_false_iff_not] at h4
  obtain ⟨⟨⟨⟨⟨⟨k1, k2⟩, k3⟩, k4⟩, k5⟩, k6⟩, k7⟩ := h4
  exact ⟨k1, k2, k3, k4, k5, k6, k7, h3⟩

theorem renderSpan_plain (t : List Char) (h : t ≠ []) :
    renderSpan (mkPlain t) = t := by
  obtain ⟨c, cs, rfl⟩ := List.exists_cons_of_ne_nil h
  simp [renderSpan, mkPlain, defaultAnnotations]

theorem renderSpan_bold (t : List Char) (h : t ≠ []) :
    renderSpan (mkBold t) = '*' :: '*' :: t ++ ['*', '*'] := by
  obtain ⟨c, cs, rfl⟩ := List.exists_cons_of_ne_nil h
  simp [renderSpan, mkBold, defaultAnnotations]

theorem renderSpan_italic (t : List Char) (h : t ≠ []) :
    renderSpan (mkItalic t) = '*' :: t ++ ['*'] := by
  obtain ⟨c, cs, rfl⟩ := List.exists_cons_of_ne_nil h
  simp [renderSpan, mkItalic, defaultAnnotations]

theorem renderSpan_boldItalic (t : List Char) (h : t ≠ []) :
    renderSpan (mkBoldItalic t) = '*' :: '*' :: '*' :: t ++ ['*', '*', '*'] := by
  obtain ⟨c, cs, rfl⟩ := List.exists_cons_of_ne_nil h
  simp [renderSpan, mkBoldItalic, defaultAnnotations]

theorem renderSpan_strike (t : List Char) (h : t ≠ []) :
    renderSpan (mkStrike t) = '~' :: '~' :: t ++ ['~', '~'] := by
  obtain ⟨c, cs, rfl⟩ := List.exists_cons_of_ne_nil h
  simp [renderSpan, mkStrike, defaultAnnotations]

theorem renderSpan_code (t : List Char) (h : t ≠ []) :
    renderSpan (mkCode t) = btChar :: t ++ [btChar] := by
  obtain ⟨c, cs, rfl⟩ := List.exists_cons_of_ne_nil h
  simp [renderSpan, mkCode, defaultAnnotations]

theorem renderSpan_link (t u : List Char) (h : t ≠ []) :
    renderSpan (mkLink t u) = '[' :: t ++ ']' :: '(' :: u ++ [')'] := by
  obtain ⟨c, cs, rfl⟩ := List.exists_cons_of_ne_nil h
  simp [renderSpan, mkLink, defaultAnnotations]

theorem matchLink_none_head (c : Char) (cs : List Char) (h : c ≠ '[') :
    matchLink (c :: cs) = none := by
  simp [matchLink, h]

theorem matchCode_none_head (c : Char) (cs : List Char) (h : c ≠ btChar) :
    matchCode (c :: cs) = none := by
  simp [matchCode, h]

theorem matchBoldItalic_none_head1 (c : Char) (cs : List Char) (h : c ≠ '*') :
    matchBoldItalic (c :: cs) = none := by
  cases cs with
  | nil => rfl
  | cons c2 cs2 =>
    cases cs2 with
    | nil => rfl
    | cons c3 cs3 => simp [matchBoldItalic, h]

theorem matchBoldItalic_none_head2 (c1 c2 : Char) (cs : List Char)
    (h : c2 ≠ '*') : matchBoldItalic (c1 :: c2 :: cs) = none := by
  cases cs with
  | nil => rfl
  | cons c3 cs3 => simp [matchBoldItalic, h]

theorem matchBoldItalic_none_head3 (c1 c2 c3 : Char) (cs : List Char)
    (h : c3 ≠ '*') : matchBoldItalic (c1 :: c2 :: c3 :: cs) = none := by
  simp [matchBoldItalic, h]

theorem matchBold_none_head1 (c : Char) (cs : List Char) (h : c ≠ '*') :
    matchBold (c :: cs) = none := by
  cases cs with
  | nil => rfl
  | cons c2 cs2 => simp [matchBold, h]

theorem matchBold_none_head2 (c1 c2 : Char) (cs : List Char) (h : c2 ≠ '*') :
    matchBold (c1 :: c2 :: cs) = none := by
  simp [matchBold, h]

theorem matchItalic_none_head (c : Char) (cs : List Char) (h : c ≠ '*') :
    matchItalic (c :: cs) = none := by
  simp [matchItalic, h]

theorem matchStrike_none_head (c : Char) (cs : List Char) (h : c ≠ '~') :
    matchStrike (c :: cs) = none := by
  cases cs with
  | nil => rfl
  | cons c2 cs2 => simp [matchStrike, h]

theorem matchAt_none_plain (c : Char) (cs : List Char)
    (h : isInlineDelim c = false) : matchAt (c :: cs) = none := by
  rw [isInlineDelim] at h
  simp only [Bool.or_eq_false_iff, decide_eq_false_iff_not] at h
  obtain ⟨⟨⟨⟨⟨⟨k1, k2⟩, k3⟩, k4⟩, k5⟩, k6⟩, k7⟩ := h
  simp only [matchAt, matchLink_none_head c cs k4, matchCode_none_head c cs k3,
    matchBoldItalic_none_head1 c cs k1, matchBold_none_head1 c cs k1,
    matchItalic_none_head c cs k1, matchStrike_none_head c cs k2]

theorem matchAt_code_r (t R : List Char) (ht : cleanText t = true) :
    matchAt (renderSpan (mkCode t) ++ R) = some (mkCode t, R) := by
  obtain ⟨hne, hch⟩ := cleanText_facts t ht
  rw [renderSpan_code t hne]
  have hst : (btChar :: t ++ [btChar]) ++ R = btChar :: (t ++ btChar :: R) := by
    simp
  rw [hst]
  have htk : (t ++ btChar :: R).takeWhile (fun x => x != btChar) = t :=
    takeWhile_append_cons _ t btChar R
      (fun a ha => bne_iff_ne.mpr (hch a ha).2.2.1) (by simp)
  have hdr : (t ++ btChar :: R).dropWhile (fun x => x != btChar) = btChar :: R :=
    dropWhile_append_cons _ t btChar R
      (fun a ha => bne_iff_ne.mpr (hch a ha).2.2.1) (by simp)
  have hcode : matchCode (btChar :: (t ++ btChar :: R)) = some (mkCode t, R) := by
    simp only [matchCode, htk, hdr]
    simp [isEmpty_false_of_ne t hne]
  have h1 := matchLink_none_head btChar (t ++ btChar :: R) (by decide)
  simp only [matchAt, h1, hcode]

theorem matchAt_link_r (t u R : List Char) (ht : cleanText t = true)
    (hu : cleanText u = true) :
    matchAt (renderSpan (mkLink t u) ++ R) = some (mkLink t u, R) := by
  obtain ⟨hne, hch⟩ := cleanText_facts t ht
  obtain ⟨hune, huch⟩ := cleanText_facts u hu
  rw [renderSpan_link t u hne]
  have hst : ('[' :: t ++ ']' :: '(' :: u ++ [')']) ++ R =
      '[' :: (t ++ ']' :: '(' :: (u ++ ')' :: R)) := by simp
  rw [hst]
  have htk : (t ++ ']' :: '(' :: (u ++ ')' :: R)).takeWhile
      (fun x => x != ']') = t :=
    takeWhile_append_cons _ t ']' _
      (fun a ha => bne_iff_ne.mpr (hch a ha).2.2.2.2.1) (by simp)
  have hdr : (t ++ ']' :: '(' :: (u ++ ')' :: R)).dropWhile
      (fun x => x != ']') = ']' :: '(' :: (u ++ ')' :: R) :=
    dropWhile_append_cons _ t ']' _
      (fun a ha => bne_iff_ne.mpr (hch a ha).2.2.2.2.1) (by simp)
  have hutk : (u ++ ')' :: R).takeWhile (fun x => x != ')') = u :=
    takeWhile_append_cons _ u ')' R
      (fun a ha => bne_iff_ne.mpr (huch a ha).2.2.2.2.2.2.1) (by simp)
  have hudr : (u ++ ')' :: R).dropWhile (fun x => x != ')') = ')' :: R :=
    dropWhile_append_cons _ u ')' R
      (fun a ha => bne_iff_ne.mpr (huch a ha).2.2.2.2.2.2.1) (by simp)
  have hlink : matchLink ('[' :: (t ++ ']' :: '(' :: (u ++ ')' :: R))) =
      some (mkLink t u, R) := by
    simp only [matchLink, htk, hdr, hutk, hudr]
    simp [isEmpty_false_of_ne t hne, isEmpty_false_of_ne u hune]
  simp only [matchAt, hlink]

theorem matchAt_boldItalic_r (t R : List Char) (ht : cleanText t = true) :
    matchAt (renderSpan (mkBoldItalic t) ++ R) = some (mkBoldItalic t, R) := by
  obtain ⟨hne, hch⟩ := cleanText_facts t ht
  rw [renderSpan_boldItalic t hne]
  have hst : ('*' :: '*' :: '*' :: t ++ ['*', '*', '*']) ++ R =
      '*' :: '*' :: '*' :: (t ++ '*' :: '*' :: '*' :: R) := by simp
  rw [hst]
  have htk : (t ++ '*' :: '*' :: '*' :: R).takeWhile (fun x => x != '*') = t :=
    takeWhile_append_cons _ t '*' _
      (fun a ha => bne_iff_ne.mpr (hch a ha).1) (by simp)
  have hdr : (t ++ '*' :: '*' :: '*' :: R).dropWhile (fun x => x != '*') =
      '*' :: '*' :: '*' :: R :=
    dropWhile_append_cons _ t '*' _
      (fun a ha => bne_iff_ne.mpr (hch a ha).1) (by simp)
  have hbi : matchBoldItalic ('*' :: '*' :: '*' :: (t ++ '*' :: '*' :: '*' :: R)) =
      some (mkBoldItalic t, R) := by
    simp only [matchBoldItalic, htk, hdr]
    simp [isEmpty_false_of_ne t hne]
  have h1 := matchLink_none_head '*' ('*' :: '*' :: (t ++ '*' :: '*' :: '*' :: R))
    (by decide)
  have h2 := matchCode_none_head '*' ('*' :: '*' :: (t ++ '*' :: '*' :: '*' :: R))
    (by decide)
  simp only [matchAt, h1, h2, hbi]

theorem matchAt_bold_r (t R : List Char) (ht : cleanText t = true) :
    matchAt (renderSpan (mkBold t) ++ R) = some (mkBold t, R) := by
  obtain ⟨hne, hch⟩ := cleanText_facts t ht
  obtain ⟨t0, t', rfl⟩ := List.exists_cons_of_ne_nil hne
  rw [renderSpan_bold _ hne]
  have hst : ('*' :: '*' :: (t0 :: t') ++ ['*', '*']) ++ R =
      '*' :: '*' :: t0 :: (t' ++ '*' :: '*' :: R) := by simp
  rw [hst]
  have h0 : t0 ≠ '*' := (hch t0 (List.mem_cons_self t0 t')).1
  have htk : ((t0 :: t') ++ '*' :: '*' :: R).takeWhile (fun x => x != '*') =
      t0 :: t' :=
    takeWhile_append_cons _ (t0 :: t') '*' _
      (fun a ha => bne_iff_ne.mpr (hch a ha).1) (by simp)
  have hdr : ((t0 :: t') ++ '*' :: '*' :: R).dropWhile (fun x => x != '*') =
      '*' :: '*' :: R :=
    dropWhile_append_cons _ (t0 :: t') '*' _
      (fun a ha => bne_iff_ne.mpr (hch a ha).1) (by simp)
  have htk2 : (t0 :: (t' ++ '*' :: '*' :: R)).takeWhile (fun x => x != '*') =
      t0 :: t' := by rw [← List.cons_append]; exact htk
  have hdr2 : (t0 :: (t' ++ '*' :: '*' :: R)).dropWhile (fun x => x != '*') =
      '*' :: '*' :: R := by rw [← List.cons_append]; exact hdr
  have hbold : matchBold ('*' :: '*' :: t0 :: (t' ++ '*' :: '*' :: R)) =
      some (mkBold (t0 :: t'), R) := by
    simp only [matchBold, htk2, hdr2]
    simp
  have h1 := matchLink_none_head '*' ('*' :: t0 :: (t' ++ '*' :: '*' :: R))
    (by decide)
  have h2 := matchCode_none_head '*' ('*' :: t0 :: (t' ++ '*' :: '*' :: R))
    (by decide)
  have h3 := matchBoldItalic_none_head3 '*' '*' t0 (t' ++ '*' :: '*' :: R) h0
  simp only [matchAt, h1, h2, h3, hbold]

theorem matchAt_italic_r (t R : List Char) (ht : cleanText t = true) :
    matchAt (renderSpan (mkItalic t) ++ R) = some (mkItalic t, R) := by
  obtain ⟨hne, hch⟩ := cleanText_facts t ht
  obtain ⟨t0, t', rfl⟩ := List.exists_cons_of_ne_nil hne
  rw [renderSpan_italic _ hne]
  have hst : ('*' :: (t0 :: t') ++ ['*']) ++ R =
      '*' :: t0 :: (t' ++ '*' :: R) := by simp
  rw [hst]
  have h0 : t0 ≠ '*' := (hch t0 (List.mem_cons_self t0 t')).1
  have htk : ((t0 :: t') ++ '*' :: R).takeWhile (fun x => x != '*') = t0 :: t' :=
    takeWhile_append_cons _ (t0 :: t') '*' _
      (fun a ha => bne_iff_ne.mpr (hch a ha).1) (by simp)
  have hdr : ((t0 :: t') ++ '*' :: R).dropWhile (fun x => x != '*') = '*' :: R :=
    dropWhile_append_cons _ (t0 :: t') '*' _
      (fun a ha => bne_iff_ne.mpr (hch a ha).1) (by simp)
  have htk2 : (t0 :: (t' ++ '*' :: R)).takeWhile (fun x => x != '*') =
      t0 :: t' := by rw [← List.cons_append]; exact htk
  have hdr2 : (t0 :: (t' ++ '*' :: R)).dropWhile (fun x => x != '*') =
      '*' :: R := by rw [← List.cons_append]; exact hdr
  have hital : matchItalic ('*' :: t0 :: (t' ++ '*' :: R)) =
      some (mkItalic (t0 :: t'), R) := by
    simp only [matchItalic, htk2, hdr2]
    simp
  have h1 := matchLink_none_head '*' (t0 :: (t' ++ '*' :: R)) (by decide)
  have h2 := matchCode_none_head '*' (t0 :: (t' ++ '*' :: R)) (by decide)
  have h3 := matchBoldItalic_none_head2 '*' t0 (t' ++ '*' :: R) h0
  have h4 := matchBold_none_head2 '*' t0 (t' ++ '*' :: R) h0
  simp only [matchAt, h1, h2, h3, h4, hital]

theorem matchAt_strike_r (t R : List Char) (ht : cleanText t = true) :
    matchAt (renderSpan (mkStrike t) ++ R) = some (mkStrike t, R) := by
  obtain ⟨hne, hch⟩ := cleanText_facts t ht
  rw [renderSpan_strike t hne]
  have hst : ('~' :: '~' :: t ++ ['~', '~']) ++ R =
      '~' :: '~' :: (t ++ '~' :: '~' :: R) := by simp
  rw [hst]
  have htk : (t ++ '~' :: '~' :: R).takeWhile (fun x => x != '~') = t :=
    takeWhile_append_cons _ t '~' _
      (fun a ha => bne_iff_ne.mpr (hch a ha).2.1) (by simp)
  have hdr : (t ++ '~' :: '~' :: R).dropWhile (fun x => x != '~') =
      '~' :: '~' :: R :=
    dropWhile_append_cons _ t '~' _
      (fun a ha => bne_iff_ne.mpr (hch a ha).2.1) (by simp)
  have hstr : matchStrike ('~' :: '~' :: (t ++ '~' :: '~' :: R)) =
      some (mkStrike t, R) := by
    simp only [matchStrike, htk, hdr]
    simp [isEmpty_false_of_ne t hne]
  have h1 := matchLink_none_head '~' ('~' :: (t ++ '~' :: '~' :: R)) (by decide)
  have h2 := matchCode_none_head '~' ('~' :: (t ++ '~' :: '~' :: R)) (by decide)
  have h3 := matchBoldItalic_none_head1 '~' ('~' :: (t ++ '~' :: '~' :: R))
    (by decide)
  have h4 := matchBold_none_head1 '~' ('~' :: (t ++ '~' :: '~' :: R)) (by decide)
  have h5 := matchItalic_none_head '~' ('~' :: (t ++ '~' :: '~' :: R)) (by decide)
  simp only [matchAt, h1, h2, h3, h4, h5, hstr]

theorem cleanSpan_cases (rt : RichTextObject) (h : cleanSpan rt = true) :
    cleanText rt.text.content = true ∧
    (rt = mkPlain rt.text.content ∨ rt = mkBold rt.text.content ∨
     rt = mkItalic rt.text.content ∨ rt = mkBoldItalic rt.text.content ∨
     rt = mkStrike rt.text.content ∨ rt = mkCode rt.text.content ∨
     ∃ u, cleanText u = true ∧ rt = mkLink rt.text.content u) := by
  rw [cleanSpan, Bool.and_eq_true] at h
  refine ⟨h.1, ?_⟩
  have h2 := h.2
  simp only [Bool.or_eq_true, beq_iff_eq] at h2
  rcases h2 with ((((((hs | hs) | hs) | hs) | hs) | hs) | hs)
  · exact Or.inl hs
  · exact Or.inr (Or.inl hs)
  · exact Or.inr (Or.inr (Or.inl hs))
  · exact Or.inr (Or.inr (Or.inr (Or.inl hs)))
  · exact Or.inr (Or.inr (Or.inr (Or.inr (Or.inl hs))))
  · exact Or.inr (Or.inr (Or.inr (Or.inr (Or.inr (Or.inl hs)))))
  · refine Or.inr (Or.inr (Or.inr (Or.inr (Or.inr (Or.inr ?_)))))
    cases hl : rt.text.link with
    | none => rw [hl] at hs; simp at hs
    | some u =>
      rw [hl] at hs
      rw [Bool.and_eq_true, beq_iff_eq] at hs
      exact ⟨u, hs.1, hs.2⟩

theorem isPlainSpan_mkPlain (rt : RichTextObject)
    (h : rt = mkPlain rt.text.content) : isPlainSpan rt = true := by
  rw [isPlainSpan]
  exact beq_iff_eq.mpr h

theorem matchAt_render (s : RichTextObject) (h : cleanSpan s = true)
    (hnp : isPlainSpan s = false) (R : List Char) :
    matchAt (renderSpan s ++ R) = some (s, R) := by
  obtain ⟨hct, hsh⟩ := cleanSpan_cases s h
  rcases hsh with hs | hs | hs | hs | hs | hs | ⟨u, hu, hs⟩
  · rw [isPlainSpan_mkPlain s hs] at hnp; cases hnp
  · rw [hs]; exact matchAt_bold_r _ _ hct
  · rw [hs]; exact matchAt_italic_r _ _ hct
  · rw [hs]; exact matchAt_boldItalic_r _ _ hct
  · rw [hs]; exact matchAt_strike_r _ _ hct
  · rw [hs]; exact matchAt_code_r _ _ hct
  · rw [hs]; exact matchAt_link_r _ _ _ hct hu

theorem renderSpan_ne_nil (s : RichTextObject) (h : cleanSpan s = true) :
    renderSpan s ≠ [] := by
  obtain ⟨hct, hsh⟩ := cleanSpan_cases s h
  obtain ⟨hne, _⟩ := cleanText_facts _ hct
  rcases hsh with hs | hs | hs | hs | hs | hs | ⟨u, hu, hs⟩
  · rw [hs, renderSpan_plain _ hne]; exact hne
  · rw [hs, renderSpan_bold _ hne]; simp
  · rw [hs, renderSpan_italic _ hne]; simp
  · rw [hs, renderSpan_boldItalic _ hne]; simp
  · rw [hs, renderSpan_strike _ hne]; simp
  · rw [hs, renderSpan_code _ hne]; simp
  · rw [hs, renderSpan_link _ _ hne]; simp

theorem noTwoPlain_tail (a : RichTextObject) (l : List RichTextObject)
    (h : noTwoPlain (a :: l) = true) : noTwoPlain l = true := by
  cases l with
  | nil => rfl
  | cons b m =>
    rw [noTwoPlain, Bool.and_eq_true] at h
    exact h.2

theorem parseAuxF_step_match (fuel : ℕ) (l acc : List Char)
    (tok : RichTextObject) (rest : List Char) (hne : l ≠ [])
    (hm : matchAt l = some (tok, rest)) :
    parseAuxF (fuel + 1) l acc = flushPlain acc ++ tok :: parseAuxF fuel rest [] := by
  obtain ⟨c, cs, rfl⟩ := List.exists_cons_of_ne_nil hne
  rw [parseAuxF, hm]

theorem rttm_cons (s : RichTextObject) (rest : List RichTextObject) :
    richTextToMarkdown (s :: rest) = renderSpan s ++ richTextToMarkdown rest := by
  simp [richTextToMarkdown]

theorem parseAuxF_consume_plain : ∀ (t : List Char),
    (∀ x ∈ t, isInlineDelim x = false) →
    ∀ fuel R acc, t.length ≤ fuel →
    parseAuxF fuel (t ++ R) acc = parseAuxF (fuel - t.length) R (acc ++ t) := by
  intro t
  induction t with
  | nil => intro _ fuel R acc _; simp
  | cons c t' ih =>
    intro hch fuel R acc hf
    cases fuel with
    | zero => exact absurd hf (by simp)
    | succ f =>
      have hm := matchAt_none_plain c (t' ++ R) (hch c (List.mem_cons_self c t'))
      rw [List.cons_append, parseAuxF, hm,
        ih (fun x hx => hch x (List.mem_cons_of_mem c hx)) f R (acc ++ [c])
          (by simp only [List.length_cons] at hf; omega)]
      simp [List.append_assoc, Nat.succ_sub_succ]

theorem parse_render_aux (n : ℕ) : ∀ spans : List RichTextObject,
    spans.length ≤ n → spans.all cleanSpan = true → noTwoPlain spans = true →
    ∀ fuel, (richTextToMarkdown spans).length ≤ fuel →
    parseAuxF fuel (richTextToMarkdown spans) [] = spans := by
  induction n with
  | zero =>
    intro spans hlen _ _ fuel _
    have hsp : spans = [] := List.length_eq_zero.mp (Nat.le_zero.mp hlen)
    subst hsp
    cases fuel <;> rfl
  | succ n ih =>
    intro spans hlen hclean hnp fuel hfuel
    cases spans with
    | nil => cases fuel <;> rfl
    | cons s rest =>
      have hcs : cleanSpan s = true ∧ rest.all cleanSpan = true := by
        simpa using hclean
      rw [rttm_cons] at hfuel ⊢
      by_cases hps : isPlainSpan s = true
      · have hs : s = mkPlain s.text.content := beq_iff_eq.mp hps
        have hct : cleanText s.text.content = true := by
          have h1 := hcs.1
          rw [cleanSpan, Bool.and_eq_true] at h1
          exact h1.1
        obtain ⟨htne, hch⟩ := cleanText_facts _ hct
        have hrs : renderSpan s = s.text.content := by
          conv_lhs => rw [hs]
          exact renderSpan_plain _ htne
        rw [hrs] at hfuel ⊢
        cases rest with
        | nil =>
          have hrn : richTextToMarkdown ([] : List RichTextObject) = [] := rfl
          rw [hrn] at hfuel ⊢
          rw [parseAuxF_consume_plain _ (fun x hx => (hch x hx).2.2.2.2.2.2.2)
            fuel [] [] (by simpa using hfuel)]
          cases hg : fuel - s.text.content.length with
          | zero =>
            rw [parseAuxF, List.nil_append, List.append_nil,
              flushPlain_ne _ htne, ← hs]
          | succ f =>
            rw [parseAuxF, List.nil_append, flushPlain_ne _ htne, ← hs]
        | cons s2 rest' =>
          have hcs2 : cleanSpan s2 = true ∧ rest'.all cleanSpan = true := by
            simpa using hcs.2
          have hnpp := hnp
          rw [noTwoPlain, Bool.and_eq_true] at hnpp
          have hps2 : isPlainSpan s2 = false := by
            have h1 := hnpp.1
            rw [hps] at h1
            simpa using h1
          have hnp' : noTwoPlain rest' = true := noTwoPlain_tail _ _ hnpp.2
          rw [rttm_cons] at hfuel ⊢
          have hlen1 := hfuel
          simp only [List.length_append] at hlen1
          rw [parseAuxF_consume_plain _ (fun x hx => (hch x hx).2.2.2.2.2.2.2)
            fuel _ [] (by omega)]
          rw [List.nil_append]
          have hrne2 : renderSpan s2 ≠ [] := renderSpan_ne_nil s2 hcs2.1
          have hr2pos : 1 ≤ (renderSpan s2).length := List.length_pos.mpr hrne2
          obtain ⟨f, hf⟩ : ∃ f, fuel - s.text.content.length = f + 1 :=
            ⟨fuel - s.text.content.length - 1, by omega⟩
          rw [hf]
          rw [parseAuxF_step_match f _ _ s2 _
            (fun hc => hrne2 (List.append_eq_nil.mp hc).1)
            (matchAt_render s2 hcs2.1 hps2 _)]
          rw [flushPlain_ne _ htne, List.singleton_append]
          rw [ih rest' (by simp only [List.length_cons] at hlen; omega) hcs2.2
            hnp' f (by omega)]
          rw [← hs]
      · have hps' : isPlainSpan s = false := by simpa using hps
        have hrne : renderSpan s ≠ [] := renderSpan_ne_nil s hcs.1
        have hrpos : 1 ≤ (renderSpan s).length := List.length_pos.mpr hrne
        have hlen1 := hfuel
        simp only [List.length_append] at hlen1
        obtain ⟨f, hf⟩ : ∃ f, fuel = f + 1 := ⟨fuel - 1, by omega⟩
        subst hf
        rw [parseAuxF_step_match f _ _ s _
          (fun hc => hrne (List.append_eq_nil.mp hc).1)
          (matchAt_render s hcs.1 hps' _)]
        rw [flushPlain_nil, List.nil_append]
        rw [ih rest (by simp only [List.length_cons] at hlen; omega) hcs.2
          (noTwoPlain_tail _ _ hnp) f (by omega)]

/-- C1: re-parsing the serialized form of a span sequence reproduces the
spans exactly, provided every span is one of the supported shapes (plain,
bold, italic, bold+italic, strikethrough, code, unstyled link) with
nonempty text free of the delimiter characters asterisk, tilde, backtick,
and square or round brackets (likewise the link URL), and no two adjacent
spans are both plain.  (The original claim without the clean-text and
no-two-adjacent-plain restrictions fails; see the counterexample.) -/
theorem C1_roundtrip (spans : List RichTextObject)
    (h1 : spans.all cleanSpan = true) (h2 : noTwoPlain spans = true) :
    parseInlineFormatting (richTextToMarkdown spans) = spans := by
  rw [parseInlineFormatting]
  exact parse_render_aux spans.length spans le_rfl h1 h2 _ le_rfl

/-- C1 counterexample: the plain span with text `**x**` (supported shape,
no styling) serializes to `**x**`, which re-parses as a bold span with
text `x`: neither the style flags nor the text survive the round trip. -/
theorem C1_counterexample :
    parseInlineFormatting (richTextToMarkdown [mkPlain ("**x**".toList)]) =
      [mkBold ("x".toList)] ∧
    mkBold ("x".toList) ≠ mkPlain ("**x**".toList) := by
  constructor
  · decide
  · decide

/-- C1 witness: a concrete mixed sequence (bold, plain, italic, code,
strikethrough, bold+italic, link) round-trips exactly. -/
theorem C1_witness :
    ([mkBold ("big".toList), mkPlain (" and ".toList), mkItalic ("it".toList),
        mkCode ("x=1".toList), mkStrike ("old".toList),
        mkBoldItalic ("wow".toList),
        mkLink ("here".toList) ("https://example.com/p".toList)].all cleanSpan =
      true) ∧
    noTwoPlain [mkBold ("big".toList), mkPlain (" and ".toList),
      mkItalic ("it".toList), mkCode ("x=1".toList), mkStrike ("old".toList),
      mkBoldItalic ("wow".toList),
      mkLink ("here".toList) ("https://example.com/p".toList)] = true ∧
    parseInlineFormatting (richTextToMarkdown
      [mkBold ("big".toList), mkPlain (" and ".toList), mkItalic ("it".toList),
       mkCode ("x=1".toList), mkStrike ("old".toList),
       mkBoldItalic ("wow".toList),
       mkLink ("here".toList) ("https://example.com/p".toList)]) =
      [mkBold ("big".toList), mkPlain (" and ".toList), mkItalic ("it".toList),
       mkCode ("x=1".toList), mkStrike ("old".toList),
       mkBoldItalic ("wow".toList),
       mkLink ("here".toList) ("https://example.com/p".toList)] :=
  ⟨by decide, by decide, C1_roundtrip _ (by decide) (by decide)⟩

end Noty
